import Mathlib

/-!
Verification of the `user_sites` personal-homepage HTTP server.

Shallow embedding of the Rust sources:
  * `src/main.rs`      — dispatcher: URL → filesystem path resolution, GET/POST
                         handler selection, shared accessor/cache state;
  * `src/file_reader.rs` — the streaming transcluding file reader;
  * `src/auto_index.rs`  — the paginated autoindex generator;
  * `micro-http-server/src/client.rs` — request parsing / response writing.

Machine integers (Rust `usize`) are modelled as `Nat` with explicit
`% 2 ^ 64` where wrap-around matters.  Rust `String` values that the code
inspects character by character are modelled as `List Char` (written
`"literal".data`); filesystem and environment access is modelled by explicit
function parameters.
-/

namespace UserSites

/-! ## Path components (Rust `std::path::Component` on Unix)

`handle_client` (main.rs:50-65) works on `Path::components()`.  On Unix a
component is the root `/`, `.` (kept only at the start of a relative path),
`..`, or a normal name.  `PathBuf` equality and hashing compare component
sequences, so a path is modelled as its component list. -/

inductive PComp where
  | rootDir : PComp
  | curDir : PComp
  | parentDir : PComp
  | normal : List Char → PComp
deriving DecidableEq, Repr

/-- Split a character list at every `/` (the pieces between separators). -/
def splitOnSlash : List Char → List (List Char)
  | [] => [[]]
  | c :: rest =>
    if c = '/' then [] :: splitOnSlash rest
    else
      match splitOnSlash rest with
      | [] => [[c]]
      | p :: ps => (c :: p) :: ps

/-- Map one non-empty, non-`"."` piece of a path string to a component. -/
def compOfPiece (t : List Char) : PComp :=
  if t = "..".data then PComp.parentDir else PComp.normal t

/-- Rust `Path::components()` on Unix: split on `/`, drop empty pieces,
collapse `.` pieces except a leading `.` of a relative path, a leading `/`
becomes the root component. -/
def pathComponents (s : String) : List PComp :=
  if s.data.head? = some '/' then
    PComp.rootDir ::
      ((((splitOnSlash s.data).filter (fun t => t ≠ [])).filter
          (fun t => t ≠ ".".data)).map compOfPiece)
  else
    match (splitOnSlash s.data).filter (fun t => t ≠ []) with
    | [] => []
    | t :: rest =>
      if t = ".".data then
        PComp.curDir :: ((rest.filter (fun u => u ≠ ".".data)).map compOfPiece)
      else
        ((t :: rest).filter (fun u => u ≠ ".".data)).map compOfPiece

/-- Rust `PathBuf::push` of a single component: pushing the root component
replaces the path, anything else is appended. -/
def pushComp (p : List PComp) (c : PComp) : List PComp :=
  match c with
  | PComp.rootDir => [PComp.rootDir]
  | _ => p ++ [c]

/-- main.rs:50-65: drop every `..` component of the URL path, take component
number 1 of what remains as the user name, fold the rest onto
`/home/<user>/www`; with no such component the result is `/home`. -/
def resolveUrlPath (s : String) : List PComp :=
  match ((pathComponents s).filter (fun c => c ≠ PComp.parentDir)).drop 1 with
  | [] => [PComp.rootDir, PComp.normal "home".data]
  | user :: tail =>
    tail.foldl pushComp
      (pushComp (pushComp [PComp.rootDir, PComp.normal "home".data] user)
        (PComp.normal "www".data))

lemma rootDir_not_mem_map_compOfPiece (l : List (List Char)) :
    PComp.rootDir ∉ l.map compOfPiece := by
  intro h
  rcases List.mem_map.mp h with ⟨s, _, hs⟩
  unfold compOfPiece at hs
  split at hs <;> simp_all

/-- The root component can only occur at the head of a component list. -/
lemma rootDir_head_cases (s : String) :
    (∃ t, pathComponents s = PComp.rootDir :: t ∧ PComp.rootDir ∉ t) ∨
    PComp.rootDir ∉ pathComponents s := by
  unfold pathComponents
  split
  · exact Or.inl ⟨_, rfl, rootDir_not_mem_map_compOfPiece _⟩
  · split
    · simp
    · split
      · right
        intro h
        rcases List.mem_cons.mp h with h | h
        · exact absurd h (by decide)
        · exact rootDir_not_mem_map_compOfPiece _ h
      · exact Or.inr (rootDir_not_mem_map_compOfPiece _)

lemma rootDir_not_mem_drop_one_filter (s : String) :
    PComp.rootDir ∉ ((pathComponents s).filter (fun c => c ≠ PComp.parentDir)).drop 1 := by
  rcases rootDir_head_cases s with ⟨t, ht, hmem⟩ | hmem
  · rw [ht]
    have hfilter : (PComp.rootDir :: t).filter (fun c => c ≠ PComp.parentDir)
        = PComp.rootDir :: t.filter (fun c => c ≠ PComp.parentDir) := by
      simp
    rw [hfilter]
    intro h
    rw [List.drop_succ_cons, List.drop_zero] at h
    exact hmem (List.mem_of_mem_filter h)
  · intro h
    exact hmem (List.mem_of_mem_filter (List.drop_subset 1 _ h))

lemma pushComp_ne_root (p : List PComp) (c : PComp) (hc : c ≠ PComp.rootDir) :
    pushComp p c = p ++ [c] := by
  cases c with
  | rootDir => exact absurd rfl hc
  | curDir => rfl
  | parentDir => rfl
  | normal s => rfl

lemma foldl_pushComp_append (base : List PComp) (l : List PComp)
    (h : PComp.rootDir ∉ l) : l.foldl pushComp base = base ++ l := by
  induction l generalizing base with
  | nil => simp
  | cons c t ih =>
    have hc : c ≠ PComp.rootDir := fun hc => h (hc ▸ List.mem_cons_self c t)
    have ht : PComp.rootDir ∉ t := fun hm => h (List.mem_cons_of_mem _ hm)
    rw [List.foldl_cons, pushComp_ne_root _ _ hc, ih _ ht]
    simp

/-- Structure of every resolved path: it begins with `/home`. -/
lemma resolveUrlPath_shape (s : String) :
    ∃ rest, resolveUrlPath s = PComp.rootDir :: PComp.normal "home".data :: rest ∧
      PComp.rootDir ∉ rest := by
  have hdrop := rootDir_not_mem_drop_one_filter s
  cases hl : ((pathComponents s).filter (fun c => c ≠ PComp.parentDir)).drop 1 with
  | nil =>
    refine ⟨[], ?_, by simp⟩
    unfold resolveUrlPath
    rw [hl]
  | cons user tail =>
    rw [hl] at hdrop
    have huser : user ≠ PComp.rootDir := fun h => hdrop (h ▸ List.mem_cons_self user tail)
    have htail : PComp.rootDir ∉ tail := fun h => hdrop (List.mem_cons_of_mem _ h)
    have hval : resolveUrlPath s = tail.foldl pushComp
        (pushComp (pushComp [PComp.rootDir, PComp.normal "home".data] user)
          (PComp.normal "www".data)) := by
      unfold resolveUrlPath
      rw [hl]
    refine ⟨user :: PComp.normal "www".data :: tail, ?_, ?_⟩
    · rw [hval, foldl_pushComp_append _ _ htail, pushComp_ne_root _ _ huser,
        pushComp_ne_root _ _ (by decide)]
      simp
    · intro h
      rcases List.mem_cons.mp h with h | h
      · exact huser h.symm
      · rcases List.mem_cons.mp h with h | h
        · exact absurd h (by decide)
        · exact htail h

/-- **C1.** For every URL path, the resolved filesystem path produced by
`handle_client` (main.rs:50-65) is either `/home` itself or a strict
descendant of `/home`: no URL shape escapes `/home`. -/
theorem resolved_path_sandbox (s : String) :
    resolveUrlPath s = [PComp.rootDir, PComp.normal "home".data] ∨
    ∃ c rest, resolveUrlPath s
      = PComp.rootDir :: PComp.normal "home".data :: c :: rest := by
  rcases resolveUrlPath_shape s with ⟨rest, hr, -⟩
  cases rest with
  | nil => exact Or.inl hr
  | cons c t => exact Or.inr ⟨c, t, hr⟩

/-! ## GET dispatch (main.rs:111-189)

The filesystem is abstracted by the predicates `handle_get` consults:
directory test, existence test, whether `open_file` succeeds, whether the
shared cache holds the path, and whether `read_dir` / process spawning
succeed.  `handle_get` never inspects file contents before choosing a
handler, so the status line is fully determined by these predicates. -/

structure Fsys where
  isDir : List PComp → Bool
  fexists : List PComp → Bool
  openOk : List PComp → Bool
  cached : List PComp → Bool
  readDirOk : List PComp → Bool
  spawnOk : List PComp → Bool

/-- `PathBuf::push` of a plain file name. -/
def pushName (p : List PComp) (s : List Char) : List PComp := p ++ [PComp.normal s]

/-- `PathBuf::pop`: drop the last component. -/
def popComp (p : List PComp) : List PComp := p.dropLast

/-- main.rs:114-120: inside a directory, probe `index_executable` then
`index.html`; each name is pushed and popped again if the new path does not
exist. -/
def indexProbe (fs : Fsys) (p : List PComp) : List PComp :=
  if fs.isDir p then
    let p1 := pushName p "index_executable".data
    let p2 := if fs.fexists p1 then p1 else popComp p1
    let p3 := pushName p2 "index.html".data
    if fs.fexists p3 then p3 else popComp p3
  else p

/-- `Path::ends_with(name)` for a single normal component: the last component
equals `name`. -/
def endsWithName (p : List PComp) (s : List Char) : Bool :=
  p.getLast? = some (PComp.normal s)

inductive GetSelection where
  | autoindex : List PComp → GetSelection
  | execIndex : List PComp → GetSelection
  | serveFile : List PComp → GetSelection
  | notFound : GetSelection
deriving DecidableEq, Repr

/-- main.rs:122-187: handler selection of `handle_get`.  After the index
probe: an existing directory gets the autoindex, a path whose last component
is `index_executable` is spawned, any other existing path is served as a
static file, and a missing path yields 404.  There is no special case for
`form_executable` or `allowed_variables`. -/
def handle_get_select (fs : Fsys) (p : List PComp) : GetSelection :=
  let q := indexProbe fs p
  if fs.fexists q then
    if fs.isDir q then GetSelection.autoindex q
    else if endsWithName q "index_executable".data then GetSelection.execIndex q
    else GetSelection.serveFile q
  else GetSelection.notFound

/-- The status line `handle_get` responds with; `none` models an I/O error
propagated out of `handle_get` (logged to stderr, no response written). -/
def handle_get_status (fs : Fsys) (p : List PComp) : Option String :=
  match handle_get_select fs p with
  | GetSelection.autoindex q =>
    if fs.cached q then some "200 OK"
    else if fs.readDirOk q then some "200 OK" else none
  | GetSelection.execIndex q => if fs.spawnOk q then some "200 OK" else none
  | GetSelection.serveFile q =>
    if fs.cached q then some "200 OK"
    else if fs.openOk q then some "200 OK" else some "500 Internal Server Error"
  | GetSelection.notFound => some "404 Not Found"

/-- main.rs:76: `Request::GET(query, _)` — the header map of a GET request is
discarded by `handle_client`; only the query reaches `handle_get`.  The
response status therefore cannot depend on any header. -/
def handle_client_get_status (fs : Fsys) (url : String)
    (_query _headers : List (List Char × List Char)) : Option String :=
  handle_get_status fs (resolveUrlPath url)

/-- A filesystem with exactly one regular file. -/
def singleFileFsys (file : List PComp) : Fsys where
  isDir := fun _ => false
  fexists := fun p => p = file
  openOk := fun p => p = file
  cached := fun _ => false
  readDirOk := fun _ => false
  spawnOk := fun _ => false

/-- **C2, counterexample.**  A GET whose resolved path is an existing regular
file named `form_executable` (or `allowed_variables`) is *not* treated as
missing: `handle_get` picks the static-file handler and serves the raw file;
it does not respond 404. -/
theorem control_files_not_special_cex :
    handle_get_select
        (singleFileFsys (resolveUrlPath "/alice/form_executable"))
        (resolveUrlPath "/alice/form_executable")
      = GetSelection.serveFile (resolveUrlPath "/alice/form_executable") ∧
    handle_get_select
        (singleFileFsys (resolveUrlPath "/alice/allowed_variables"))
        (resolveUrlPath "/alice/allowed_variables")
      = GetSelection.serveFile (resolveUrlPath "/alice/allowed_variables") ∧
    ∀ p : List PComp, GetSelection.serveFile p ≠ GetSelection.notFound := by
  refine ⟨by decide, by decide, ?_⟩
  intro p h
  cases h

/-- **C2, amended.**  `handle_get` applies no special-casing to
`form_executable` or `allowed_variables`: a resolved path whose last
component is one of these two names and which exists as a regular file is
served by the static-file handler like any other file. -/
theorem control_files_served_as_static (fs : Fsys) (p : List PComp) (s : List Char)
    (hs : s = "form_executable".data ∨ s = "allowed_variables".data)
    (hend : endsWithName p s = true)
    (hex : fs.fexists p = true)
    (hdir : fs.isDir p = false) :
    handle_get_select fs p = GetSelection.serveFile p := by
  have hq : indexProbe fs p = p := by
    unfold indexProbe
    rw [hdir]
    simp
  unfold endsWithName at hend
  simp only [decide_eq_true_eq] at hend
  have hne : endsWithName p "index_executable".data = false := by
    unfold endsWithName
    simp only [decide_eq_false_iff_not]
    rw [hend]
    intro hc
    injection hc with hc2
    injection hc2 with hc3
    rcases hs with h | h <;> subst h <;> exact absurd hc3 (by decide)
  unfold handle_get_select
  rw [hq]
  simp [hex, hdir, hne]

theorem control_files_served_as_static_witness :
    (("form_executable".data = "form_executable".data ∨
        "form_executable".data = "allowed_variables".data) ∧
      endsWithName [PComp.rootDir, PComp.normal "home".data, PComp.normal "alice".data,
        PComp.normal "www".data, PComp.normal "form_executable".data]
        "form_executable".data = true ∧
      (singleFileFsys [PComp.rootDir, PComp.normal "home".data, PComp.normal "alice".data,
        PComp.normal "www".data, PComp.normal "form_executable".data]).fexists
        [PComp.rootDir, PComp.normal "home".data, PComp.normal "alice".data,
          PComp.normal "www".data, PComp.normal "form_executable".data] = true ∧
      (singleFileFsys [PComp.rootDir, PComp.normal "home".data, PComp.normal "alice".data,
        PComp.normal "www".data, PComp.normal "form_executable".data]).isDir
        [PComp.rootDir, PComp.normal "home".data, PComp.normal "alice".data,
          PComp.normal "www".data, PComp.normal "form_executable".data] = false) ∧
    handle_get_select
      (singleFileFsys [PComp.rootDir, PComp.normal "home".data, PComp.normal "alice".data,
        PComp.normal "www".data, PComp.normal "form_executable".data])
      [PComp.rootDir, PComp.normal "home".data, PComp.normal "alice".data,
        PComp.normal "www".data, PComp.normal "form_executable".data]
      = GetSelection.serveFile [PComp.rootDir, PComp.normal "home".data,
          PComp.normal "alice".data, PComp.normal "www".data,
          PComp.normal "form_executable".data] :=
  ⟨⟨Or.inl rfl, by decide, by decide, by decide⟩,
    control_files_served_as_static _ _ _ (Or.inl rfl) (by decide) (by decide) (by decide)⟩

/-- **C5, counterexample.**  A GET for an existing static file whose
`if-modified-since` header carries an HTTP-date for the file's mtime is
answered `200 OK`, never `304 Not Modified`: main.rs has no conditional-GET
logic at all and discards request headers at main.rs:76. -/
theorem if_modified_since_ignored_cex :
    handle_client_get_status
        (singleFileFsys (resolveUrlPath "/alice/page.html"))
        "/alice/page.html" []
        [("if-modified-since".data, "Thu, 01 Jan 1970 00:00:00 GMT".data)]
      = some "200 OK" ∧
    some "200 OK" ≠ some "304 Not Modified" := by
  constructor
  · decide
  · intro h
    simp at h

/-- **C5, amended.**  The response status of a GET is independent of the
request headers (they are discarded at main.rs:76) and is never
`304 Not Modified`; a served static file always yields `200 OK` (or `500` on
open failure). -/
theorem get_status_never_304 (fs : Fsys) (url : String)
    (q h1 h2 : List (List Char × List Char)) :
    handle_client_get_status fs url q h1 = handle_client_get_status fs url q h2 ∧
    handle_client_get_status fs url q h1 ≠ some "304 Not Modified" := by
  refine ⟨rfl, ?_⟩
  intro h
  unfold handle_client_get_status handle_get_status at h
  split at h <;> (try split at h) <;> (try split at h) <;> simp_all

/-! ## Environment-variable filtering (main.rs:327-334)

`filter_env_variables` iterates over a snapshot of the map's keys and
removes a key when `env::var` reports it set or when it equals its own
upper-case form.  Rust's `to_uppercase` is modelled for ASCII.  The map is
modelled as an association list; `HashMap::remove` removes every pairing of
the key. -/

def upperChar (c : Char) : Char :=
  if 'a' ≤ c ∧ c ≤ 'z' then Char.ofNat (c.toNat - 32) else c

def toUpperChars (l : List Char) : List Char := l.map upperChar

/-- `HashMap::remove(&var)`. -/
def removeKey (vars : List (List Char × List Char)) (k : List Char) :
    List (List Char × List Char) :=
  vars.filter (fun kv => kv.1 ≠ k)

/-- main.rs:327-334: remove every variable that is already defined in the
server's environment or is all caps.  `isEnvSet k` models
`env::var(&k).is_ok()`. -/
def filter_env_variables (isEnvSet : List Char → Bool)
    (vars : List (List Char × List Char)) : List (List Char × List Char) :=
  (vars.map Prod.fst).foldl
    (fun acc k => if isEnvSet k || k = toUpperChars k then removeKey acc k else acc)
    vars

/-- Modelled from the spec for comparison: the filter the spec describes,
which additionally drops every key not listed in `allowed_variables`.
No code in src/ reads `allowed_variables`. -/
def spec_filter_env_variables (isEnvSet : List Char → Bool)
    (allowed : List (List Char)) (vars : List (List Char × List Char)) :
    List (List Char × List Char) :=
  vars.filter (fun kv =>
    !(isEnvSet kv.1) && !(decide (kv.1 = toUpperChars kv.1)) && allowed.contains kv.1)

lemma foldl_removeKey_eq_filter (pred : List Char → Bool) (ks : List (List Char))
    (acc : List (List Char × List Char)) :
    ks.foldl (fun acc k => if pred k then removeKey acc k else acc) acc
      = acc.filter (fun kv => !(pred kv.1 && ks.contains kv.1)) := by
  induction ks generalizing acc with
  | nil => simp
  | cons k ks ih =>
    rw [List.foldl_cons]
    by_cases hk : pred k = true
    · rw [if_pos hk, ih, removeKey, List.filter_filter]
      apply List.filter_congr
      intro kv _
      by_cases hkv : kv.1 = k
      · subst hkv
        simp [hk]
      · simp [hkv]
    · rw [if_neg hk, ih]
      apply List.filter_congr
      intro kv _
      by_cases hkv : kv.1 = k
      · rw [hkv]
        simp [Bool.eq_false_iff.mpr hk]
      · simp [hkv]

/-- **C3, counterexample.**  A lower-case key (`name`) that is not set in the
environment survives `filter_env_variables` and is exported to the child
process even though it is not listed in any `allowed_variables` file — the
code never reads such a file (the spec-modelled filter with an empty
whitelist would drop it). -/
theorem filter_env_ignores_allowed_cex :
    filter_env_variables (fun _ => false) [("name".data, "joe".data)]
      = [("name".data, "joe".data)] ∧
    spec_filter_env_variables (fun _ => false) [] [("name".data, "joe".data)] = [] ∧
    ([("name".data, "joe".data)] : List (List Char × List Char)) ≠ [] := by
  refine ⟨by decide, by decide, by decide⟩

/-- **C3, amended.**  The environment map passed to spawned executables is
exactly the request's map with every key removed that is set in the server's
environment or equals its own upper-case form; `allowed_variables` is not
consulted, so unlisted keys are still exported. -/
theorem filter_env_characterization (isEnvSet : List Char → Bool)
    (vars : List (List Char × List Char)) :
    filter_env_variables isEnvSet vars
      = vars.filter (fun kv => !(isEnvSet kv.1 || kv.1 = toUpperChars kv.1)) := by
  unfold filter_env_variables
  rw [foldl_removeKey_eq_filter (fun k => isEnvSet k || k = toUpperChars k)]
  apply List.filter_congr
  intro kv hkv
  have hmem : (vars.map Prod.fst).contains kv.1 = true := by
    simp only [List.contains_iff_exists_mem_beq]
    exact ⟨kv.1, List.mem_map_of_mem Prod.fst hkv, by simp⟩
  rw [hmem, Bool.and_true]

/-! ## Autoindex pagination (auto_index.rs:82-96)

With a non-zero page size the generator computes
`num_pages = (len + page_size - 1) / page_size`, `last_index = len - 1`
(usize arithmetic), `start = min(page_number * page_size, last_index)`,
`end = min(start + page_size - 1, last_index)` and slices
`entries[start..=end]`.  `usize` subtraction and multiplication are modelled
with wrap-around `% 2 ^ 64`; a wrapping `len - 1` at `len = 0` (a debug
build panics right there) makes the slice out of bounds, which panics in
release builds too — both are modelled as `.panic`. -/

def U64 : Nat := 2 ^ 64

inductive IndexListing (α : Type) where
  | all : List α → IndexListing α
  | paged : Nat → Nat → Nat → List α → IndexListing α
  | panic : IndexListing α
deriving DecidableEq, Repr

/-- auto_index.rs:69-130, reduced to the entry-list computation: which
entries appear, plus the pagination numbers (`num_pages`, `start`, `end`). -/
def generate_index_listing {α : Type} (entries : List α)
    (page_size page_number : Nat) : IndexListing α :=
  if page_size = 0 then IndexListing.all entries
  else
    let num_pages := ((entries.length + page_size - 1) % U64) / page_size
    let last_index := (entries.length + (U64 - 1)) % U64
    let start := min ((page_number * page_size) % U64) last_index
    let stop := min ((start + page_size - 1) % U64) last_index
    if start ≤ stop + 1 ∧ stop + 1 ≤ entries.length then
      IndexListing.paged num_pages start stop ((entries.drop start).take (stop + 1 - start))
    else IndexListing.panic

/-- **C9, counterexample.**  With zero entries and page size 1 the generator
panics (`entries.len() - 1` underflows; the slice `entries[start..=end]` is
out of bounds): the computation is not total. -/
theorem autoindex_empty_panics_cex :
    generate_index_listing ([] : List Nat) 1 0 = IndexListing.panic := by
  decide

/-- **C9, amended.**  For a non-empty entry list, a page size `n > 0` and a
page number `p` whose products stay inside `usize`, the generator returns the
slice `[start, end]` of the entries with `num_pages = ceil(count / n)`,
`start = min(p * n, count - 1)`, `end = min(start + n - 1, count - 1)`; with
zero entries it panics instead. -/
theorem autoindex_pagination {α : Type} (entries : List α) (n p : Nat)
    (hn : 0 < n) (hne : entries ≠ [])
    (hov1 : p * n < U64) (hov2 : entries.length + n ≤ U64) :
    generate_index_listing entries n p
      = IndexListing.paged ((entries.length + n - 1) / n)
          (min (p * n) (entries.length - 1))
          (min (min (p * n) (entries.length - 1) + n - 1) (entries.length - 1))
          ((entries.drop (min (p * n) (entries.length - 1))).take
            (min (min (p * n) (entries.length - 1) + n - 1) (entries.length - 1) + 1
              - min (p * n) (entries.length - 1))) := by
  have hlen : 1 ≤ entries.length := List.length_pos.mpr hne
  have hU : entries.length + n - 1 < U64 := by omega
  have h1 : (entries.length + n - 1) % U64 = entries.length + n - 1 :=
    Nat.mod_eq_of_lt hU
  have h2 : (entries.length + (U64 - 1)) % U64 = entries.length - 1 := by
    have hx : entries.length + (U64 - 1) = (entries.length - 1) + 1 * U64 := by omega
    rw [hx, Nat.add_mul_mod_self_right, Nat.mod_eq_of_lt (by omega)]
  have h3 : (p * n) % U64 = p * n := Nat.mod_eq_of_lt hov1
  have hm : min (p * n) (entries.length - 1) ≤ entries.length - 1 :=
    Nat.min_le_right _ _
  have h4 : (min (p * n) (entries.length - 1) + n - 1) % U64
      = min (p * n) (entries.length - 1) + n - 1 :=
    Nat.mod_eq_of_lt (by omega)
  unfold generate_index_listing
  rw [if_neg hn.ne']
  simp only [h1, h2, h3, h4]
  rw [if_pos (by omega)]

theorem autoindex_pagination_witness :
    (0 < 2 ∧ ([10, 20, 30] : List Nat) ≠ [] ∧ 0 * 2 < U64 ∧
      ([10, 20, 30] : List Nat).length + 2 ≤ U64) ∧
    generate_index_listing ([10, 20, 30] : List Nat) 2 0
      = IndexListing.paged 2 0 1 [10, 20] :=
  ⟨⟨by decide, by decide, by decide, by decide⟩, by
    rw [autoindex_pagination ([10, 20, 30] : List Nat) 2 0 (by decide) (by decide)
      (by decide) (by decide)]
    decide⟩

/-! ## Shared state (main.rs:20, 246-323)

`SharedData = Arc<Mutex<(HashMap<PathBuf, (usize, Option<Bytes>)>, usize)>>`:
a map from path to (accessor count, optional cached bytes) plus the global
cache byte counter.  The hash map is modelled as an association list whose
keys are component lists (`PathBuf` equality and hashing go through
components).  Each critical section of the Rust code becomes one function on
the whole state. -/

def MAX_CONCURRENT_ACCESSORS : Nat := 5000
def MAX_CACHE_SIZE : Nat := 1 * 1024 * 1024 * 1024

structure SharedState where
  map : List (List PComp × Nat × Option (List Nat))
  cacheSize : Nat
deriving DecidableEq, Repr

def lookupEntry (m : List (List PComp × Nat × Option (List Nat))) (k : List PComp) :
    Option (Nat × Option (List Nat)) :=
  match m with
  | [] => none
  | e :: rest => if e.1 = k then some e.2 else lookupEntry rest k

def setEntry (m : List (List PComp × Nat × Option (List Nat))) (k : List PComp)
    (v : Nat × Option (List Nat)) : List (List PComp × Nat × Option (List Nat)) :=
  m.map (fun e => if e.1 = k then (k, v) else e)

def removeEntry (m : List (List PComp × Nat × Option (List Nat))) (k : List PComp) :
    List (List PComp × Nat × Option (List Nat)) :=
  m.filter (fun e => e.1 ≠ k)

/-- main.rs:317-323. -/
def get_concurrent_accessors (st : SharedState) (p : List PComp) : Nat :=
  match lookupEntry st.map p with
  | some e => e.1
  | none => 0

/-- main.rs:67: the admission check of `handle_client`.  Note that the code
passes `&path` — the PathBuf of the *request URL* — to
`get_concurrent_accessors`, not `&file_path`, the resolved filesystem path
that keys every map entry. -/
def handle_client_rejects (st : SharedState) (url : String) : Bool :=
  get_concurrent_accessors st (pathComponents url) > MAX_CONCURRENT_ACCESSORS

/-- main.rs:255-277, `UpdateType::Accessing`: increment the accessor count
(inserting the entry at 1), returning the count seen before the increment. -/
def update_accessing (st : SharedState) (p : List PComp) : SharedState × Nat :=
  match lookupEntry st.map p with
  | some (n, c) => ({ st with map := setEntry st.map p (n + 1, c) }, n)
  | none => ({ st with map := (p, 1, none) :: st.map }, 0)

/-- main.rs:279-289, the decrement critical section of `UpdateType::Closing`:
decrement the count; at zero, subtract the cached length from the global
counter and drop the entry.  (In every reachable state the count is ≥ 1 and
the counter is ≥ the slot length, so `Nat` subtraction agrees with `usize`.) -/
def update_closing (st : SharedState) (p : List PComp) : SharedState :=
  match lookupEntry st.map p with
  | some (n, c) =>
    if n - 1 = 0 then
      { map := removeEntry st.map p,
        cacheSize := st.cacheSize - (c.map List.length).getD 0 }
    else { st with map := setEntry st.map p (n - 1, c) }
  | none => st

/-- main.rs:295-305. -/
def set_cache (st : SharedState) (p : List PComp) (new_cache : List Nat) : SharedState :=
  match lookupEntry st.map p with
  | some (n, c) =>
    let new_cache_size := st.cacheSize - (c.map List.length).getD 0
    if new_cache_size + new_cache.length < MAX_CACHE_SIZE then
      { map := setEntry st.map p (n, some new_cache),
        cacheSize := new_cache_size + new_cache.length }
    else st
  | none => st

/-- main.rs:312-314 (pure read; no state change). -/
def get_cache (st : SharedState) (p : List PComp) : Option (List Nat) :=
  (lookupEntry st.map p).bind (fun e => e.2)

/-- Length of a populated cache slot. -/
def slotLen (c : Option (List Nat)) : Nat := (c.map List.length).getD 0

/-- Sum of the lengths of all populated cache slots. -/
def cacheSum (m : List (List PComp × Nat × Option (List Nat))) : Nat :=
  (m.map (fun e => slotLen e.2.2)).sum

/-- The conserved shared-state invariant: distinct keys, and the global
counter equals the sum of cached lengths. -/
def InvS (st : SharedState) : Prop :=
  (st.map.map (fun e => e.1)).Nodup ∧ st.cacheSize = cacheSum st.map

/-- States reachable through the critical sections of main.rs (`get_cache`
reads without writing and is omitted). -/
inductive Reach : SharedState → Prop where
  | init : Reach ⟨[], 0⟩
  | accessing (s : SharedState) (p : List PComp) : Reach s → Reach (update_accessing s p).1
  | closing (s : SharedState) (p : List PComp) : Reach s → Reach (update_closing s p)
  | setCache (s : SharedState) (p : List PComp) (c : List Nat) :
      Reach s → Reach (set_cache s p c)

lemma lookupEntry_none_of_not_key (m : List (List PComp × Nat × Option (List Nat)))
    (k : List PComp) (h : ∀ e ∈ m, e.1 ≠ k) : lookupEntry m k = none := by
  induction m with
  | nil => rfl
  | cons e rest ih =>
    unfold lookupEntry
    rw [if_neg (h e (List.mem_cons_self e rest))]
    exact ih (fun x hx => h x (List.mem_cons_of_mem e hx))

lemma lookupEntry_some_mem (m : List (List PComp × Nat × Option (List Nat)))
    (k : List PComp) (v : Nat × Option (List Nat)) (h : lookupEntry m k = some v) :
    (k, v) ∈ m := by
  induction m with
  | nil => cases h
  | cons e rest ih =>
    unfold lookupEntry at h
    split at h
    · rename_i he
      injection h with h2
      subst he
      subst h2
      exact List.mem_cons_self e rest
    · exact List.mem_cons_of_mem e (ih h)

lemma keys_setEntry (m : List (List PComp × Nat × Option (List Nat)))
    (k : List PComp) (v : Nat × Option (List Nat)) :
    (setEntry m k v).map (fun e => e.1) = m.map (fun e => e.1) := by
  unfold setEntry
  rw [List.map_map]
  apply List.map_congr_left
  intro e _
  by_cases he : e.1 = k <;> simp [he]

lemma slotLen_le_cacheSum (m : List (List PComp × Nat × Option (List Nat)))
    (k : List PComp) (v : Nat × Option (List Nat)) (h : lookupEntry m k = some v) :
    slotLen v.2 ≤ cacheSum m := by
  have hm := lookupEntry_some_mem m k v h
  unfold cacheSum
  calc slotLen v.2
      = (fun e : List PComp × Nat × Option (List Nat) => slotLen e.2.2) (k, v) := rfl
    _ ≤ _ := List.single_le_sum (fun x _ => Nat.zero_le x) _
        (List.mem_map_of_mem (fun e : List PComp × Nat × Option (List Nat) => slotLen e.2.2) hm)

lemma cacheSum_setEntry (m : List (List PComp × Nat × Option (List Nat)))
    (k : List PComp) (v w : Nat × Option (List Nat))
    (hnd : (m.map (fun e => e.1)).Nodup) (h : lookupEntry m k = some v) :
    cacheSum (setEntry m k w) + slotLen v.2 = cacheSum m + slotLen w.2 := by
  induction m with
  | nil => cases h
  | cons e rest ih =>
    simp only [List.map_cons, List.nodup_cons] at hnd
    unfold lookupEntry at h
    unfold setEntry cacheSum at *
    simp only [List.map_cons, List.sum_cons]
    split at h
    · rename_i he
      injection h with h2
      have hrest : (setEntry rest k w) = rest := by
        unfold setEntry
        calc rest.map (fun e => if e.1 = k then (k, w) else e)
            = rest.map id := by
              apply List.map_congr_left
              intro x hx
              rw [if_neg, id]
              intro hxk
              apply hnd.1
              rw [he, ← hxk]
              exact List.mem_map_of_mem (fun e => e.1) hx
          _ = rest := List.map_id rest
      rw [if_pos he]
      unfold setEntry at hrest
      rw [hrest, ← h2]
      simp only [List.map_cons, List.sum_cons]
      omega
    · rename_i he
      rw [if_neg he]
      have := ih hnd.2 h
      omega

lemma cacheSum_removeEntry (m : List (List PComp × Nat × Option (List Nat)))
    (k : List PComp) (v : Nat × Option (List Nat))
    (hnd : (m.map (fun e => e.1)).Nodup) (h : lookupEntry m k = some v) :
    cacheSum (removeEntry m k) + slotLen v.2 = cacheSum m := by
  induction m with
  | nil => cases h
  | cons e rest ih =>
    simp only [List.map_cons, List.nodup_cons] at hnd
    unfold lookupEntry at h
    unfold removeEntry cacheSum at *
    split at h
    · rename_i he
      injection h with h2
      have hrest : rest.filter (fun x => x.1 ≠ k) = rest := by
        apply List.filter_eq_self.mpr
        intro x hx
        simp only [decide_eq_true_eq]
        intro hxk
        apply hnd.1
        rw [he, ← hxk]
        exact List.mem_map_of_mem (fun e => e.1) hx
      rw [List.filter_cons_of_neg (by simp [he]), hrest, ← h2]
      simp only [List.map_cons, List.sum_cons]
      omega
    · rename_i he
      rw [List.filter_cons_of_pos (by simp [he])]
      simp only [List.map_cons, List.sum_cons]
      have := ih hnd.2 h
      omega

lemma keys_removeEntry_nodup (m : List (List PComp × Nat × Option (List Nat)))
    (k : List PComp) (hnd : (m.map (fun e => e.1)).Nodup) :
    ((removeEntry m k).map (fun e => e.1)).Nodup := by
  unfold removeEntry
  induction m with
  | nil => simp
  | cons e rest ih =>
    simp only [List.map_cons, List.nodup_cons] at hnd
    by_cases he : e.1 = k
    · rw [List.filter_cons_of_neg (by simp [he])]
      exact ih hnd.2
    · rw [List.filter_cons_of_pos (by simp [he])]
      simp only [List.map_cons, List.nodup_cons]
      refine ⟨?_, ih hnd.2⟩
      intro hmem
      rcases List.mem_map.mp hmem with ⟨x, hx, hx1⟩
      apply hnd.1
      rw [← hx1]
      exact List.mem_map_of_mem (fun e => e.1) (List.mem_of_mem_filter hx)

lemma lookupEntry_none_not_mem_keys (m : List (List PComp × Nat × Option (List Nat)))
    (k : List PComp) (h : lookupEntry m k = none) :
    k ∉ m.map (fun e => e.1) := by
  induction m with
  | nil => simp
  | cons e rest ih =>
    unfold lookupEntry at h
    split at h
    · cases h
    · rename_i he
      simp only [List.map_cons, List.mem_cons]
      rintro (hk | hk)
      · exact he hk.symm
      · exact ih h hk

lemma invS_update_accessing (s : SharedState) (p : List PComp) (h : InvS s) :
    InvS (update_accessing s p).1 := by
  obtain ⟨hnd, hsum⟩ := h
  cases hl : lookupEntry s.map p with
  | none =>
    simp only [update_accessing, hl]
    refine ⟨?_, ?_⟩
    · simp only [List.map_cons, List.nodup_cons]
      exact ⟨lookupEntry_none_not_mem_keys _ _ hl, hnd⟩
    · unfold cacheSum at *
      simpa [slotLen] using hsum
  | some v =>
    obtain ⟨n, c⟩ := v
    simp only [update_accessing, hl]
    refine ⟨?_, ?_⟩
    · rw [keys_setEntry]
      exact hnd
    · have hset : cacheSum (setEntry s.map p (n + 1, c)) + slotLen c
          = cacheSum s.map + slotLen c :=
        cacheSum_setEntry s.map p (n, c) (n + 1, c) hnd hl
      simp only
      omega

lemma invS_update_closing (s : SharedState) (p : List PComp) (h : InvS s) :
    InvS (update_closing s p) := by
  obtain ⟨hnd, hsum⟩ := h
  cases hl : lookupEntry s.map p with
  | none =>
    simp only [update_closing, hl]
    exact ⟨hnd, hsum⟩
  | some v =>
    obtain ⟨n, c⟩ := v
    simp only [update_closing, hl]
    by_cases hz : n - 1 = 0
    · rw [if_pos hz]
      refine ⟨keys_removeEntry_nodup _ _ hnd, ?_⟩
      have hrem : cacheSum (removeEntry s.map p) + slotLen c = cacheSum s.map :=
        cacheSum_removeEntry s.map p (n, c) hnd hl
      have hle : slotLen c ≤ cacheSum s.map := slotLen_le_cacheSum s.map p (n, c) hl
      simp only [slotLen] at hrem hle
      simp only
      omega
    · rw [if_neg hz]
      refine ⟨by rw [keys_setEntry]; exact hnd, ?_⟩
      have hset : cacheSum (setEntry s.map p (n - 1, c)) + slotLen c
          = cacheSum s.map + slotLen c :=
        cacheSum_setEntry s.map p (n, c) (n - 1, c) hnd hl
      simp only
      omega

lemma invS_set_cache (s : SharedState) (p : List PComp) (c : List Nat) (h : InvS s) :
    InvS (set_cache s p c) := by
  obtain ⟨hnd, hsum⟩ := h
  cases hl : lookupEntry s.map p with
  | none =>
    simp only [set_cache, hl]
    exact ⟨hnd, hsum⟩
  | some v =>
    obtain ⟨n, oc⟩ := v
    simp only [set_cache, hl]
    by_cases hsz : s.cacheSize - (oc.map List.length).getD 0 + c.length < MAX_CACHE_SIZE
    · rw [if_pos hsz]
      refine ⟨by rw [keys_setEntry]; exact hnd, ?_⟩
      have hst : cacheSum (setEntry s.map p (n, some c)) + slotLen oc
          = cacheSum s.map + slotLen (some c) :=
        cacheSum_setEntry s.map p (n, oc) (n, some c) hnd hl
      have hle : slotLen oc ≤ cacheSum s.map := slotLen_le_cacheSum s.map p (n, oc) hl
      simp only [slotLen, Option.map_some', Option.getD_some] at hst hle
      simp only
      omega
    · rw [if_neg hsz]
      exact ⟨hnd, hsum⟩

lemma invS_of_reach (s : SharedState) (h : Reach s) : InvS s := by
  induction h with
  | init => exact ⟨List.nodup_nil, rfl⟩
  | accessing s p _ ih => exact invS_update_accessing s p ih
  | closing s p _ ih => exact invS_update_closing s p ih
  | setCache s p c _ ih => exact invS_set_cache s p c ih

/-- **C8.**  In every reachable shared state the global `cache_bytes_in_use`
counter equals the sum of the lengths of the populated cache slots (with
pairwise-distinct keys), and each critical section — accessor increment,
decrement with entry removal, cache install — preserves this equality.
(`get_cache` does not modify the state.) -/
theorem cache_size_conservation (s : SharedState) (hs : Reach s)
    (p : List PComp) (c : List Nat) :
    InvS s ∧ InvS (update_accessing s p).1 ∧ InvS (update_closing s p) ∧
      InvS (set_cache s p c) := by
  have h := invS_of_reach s hs
  exact ⟨h, invS_update_accessing s p h, invS_update_closing s p h, invS_set_cache s p c h⟩

theorem cache_size_conservation_witness :
    Reach (⟨[], 0⟩ : SharedState) ∧
    (InvS (⟨[], 0⟩ : SharedState) ∧
      InvS (update_accessing ⟨[], 0⟩ [PComp.rootDir, PComp.normal "home".data]).1 ∧
      InvS (update_closing ⟨[], 0⟩ [PComp.rootDir, PComp.normal "home".data]) ∧
      InvS (set_cache ⟨[], 0⟩ [PComp.rootDir, PComp.normal "home".data] [1, 2, 3])) :=
  ⟨Reach.init,
    cache_size_conservation ⟨[], 0⟩ Reach.init
      [PComp.rootDir, PComp.normal "home".data] [1, 2, 3]⟩

/-- **C4, counterexample.**  A state in which the resolved path of `GET /`
(viz. `/home`) has 5001 concurrent accessors — above
`MAX_CONCURRENT_ACCESSORS` — and yet `handle_client` does *not* respond 503:
the admission check looks up the raw URL path `/`, which is not a key of the
map. -/
theorem admission_checks_url_path_cex :
    get_concurrent_accessors
        ⟨[([PComp.rootDir, PComp.normal "home".data], 5001, none)], 0⟩
        (resolveUrlPath "/") = 5001 ∧
    MAX_CONCURRENT_ACCESSORS < 5001 ∧
    handle_client_rejects
        ⟨[([PComp.rootDir, PComp.normal "home".data], 5001, none)], 0⟩ "/" = false := by
  refine ⟨by decide, by decide, by decide⟩

/-- **C4, amended.**  The admission check compares the accessor count stored
under the *raw URL path* with `MAX_CONCURRENT_ACCESSORS`, not the count of
the resolved path: whenever the URL's own component list is not a key of the
map, the request is admitted even if the resolved path's count exceeds the
limit — in particular none of 5001 concurrent `GET /` requests receives 503. -/
theorem admission_uses_url_path (st : SharedState) (url : String)
    (hnotkey : lookupEntry st.map (pathComponents url) = none)
    (_hover : MAX_CONCURRENT_ACCESSORS < get_concurrent_accessors st (resolveUrlPath url)) :
    handle_client_rejects st url = false := by
  unfold handle_client_rejects get_concurrent_accessors
  rw [hnotkey]
  simp [MAX_CONCURRENT_ACCESSORS]

theorem admission_uses_url_path_witness :
    (lookupEntry
        (⟨[([PComp.rootDir, PComp.normal "home".data], 5001, none)], 0⟩ :
          SharedState).map (pathComponents "/") = none ∧
      MAX_CONCURRENT_ACCESSORS < get_concurrent_accessors
        ⟨[([PComp.rootDir, PComp.normal "home".data], 5001, none)], 0⟩
        (resolveUrlPath "/")) ∧
    handle_client_rejects
      ⟨[([PComp.rootDir, PComp.normal "home".data], 5001, none)], 0⟩ "/" = false :=
  ⟨⟨by decide, by decide⟩,
    admission_uses_url_path _ "/" (by decide) (by decide)⟩

/-! ## Transcluding file reader (src/file_reader.rs)

Bytes are `Nat`; a filesystem is `List Nat → Option (List Nat)` mapping a
path (the raw bytes of its string) to file contents — `Path::exists` is
`isSome`, `File::open` fails exactly on `none`.  A `ReaderData.buf` models
the *filled* prefix `buf[0 .. end)` of the Rust 1024-byte buffer (its length
is the Rust `end` field); bytes beyond `end` are never read before being
overwritten.  The Rust `Vec` stack grows at the end; here the list head is
the top frame.  Loops whose Rust form is `while` over the buffer window are
given an explicit iteration count equal to the window size, re-checking the
loop condition each step. -/

def BUFFER_SIZE : Nat := 1024
def MAX_TRANSCLUDE_DEPTH : Nat := 10
def TRANSCLUDE_START_BYTE : Nat := 123
def TRANSCLUDE_END_BYTE : Nat := 125
def ESCAPE_BYTE : Nat := 92

/-- `u8::to_ascii_lowercase`. -/
def byteLower (b : Nat) : Nat := if 65 ≤ b ∧ b ≤ 90 then b + 32 else b

/-- The final component of a byte path (suffix after the last `/`). -/
def fileNameBytes (p : List Nat) : List Nat :=
  (p.reverse.takeWhile (fun b => b ≠ 47)).reverse

/-- `Path::extension`, as the bytes after the final `.` of the file name
(`[]` when there is none, matching the `unwrap_or("")` at
file_reader.rs:242-243); a leading `.` alone does not start an extension. -/
def extensionBytes (p : List Nat) : List Nat :=
  match fileNameBytes p with
  | [] => []
  | _ :: core =>
    if core.contains 46 then (core.reverse.takeWhile (fun b => b ≠ 46)).reverse else []

/-- file_reader.rs:241-247. -/
def is_transclude_enabled (p : List Nat) : Bool :=
  (extensionBytes p).map byteLower = "html".data.map Char.toNat

/-- `Path::is_relative` on Unix: no leading `/`. -/
def isRelativePath (p : List Nat) : Bool := p.head? ≠ some 47

/-- `Path::parent`: strip the final component. -/
def parentPath (p : List Nat) : Option (List Nat) :=
  if p = [] ∨ p = [47] then none
  else
    match p.reverse.dropWhile (fun b => b ≠ 47) with
    | [] => some []
    | _ :: rest => some (if rest = [] then [47] else rest.reverse)

/-- `Path::join` with a relative right operand. -/
def joinPath (p q : List Nat) : List Nat :=
  if p = [] then q
  else if p.getLast? = some 47 then p ++ q else p ++ [47] ++ q

def utf8Cont (b : Nat) : Bool := decide (128 ≤ b ∧ b ≤ 191)

/-- `str::from_utf8(..).is_ok()`. -/
def utf8Valid : List Nat → Bool
  | [] => true
  | b :: l =>
    if b ≤ 127 then utf8Valid l
    else
      match l with
      | [] => false
      | b2 :: l2 =>
        if 194 ≤ b ∧ b ≤ 223 then utf8Cont b2 && utf8Valid l2
        else
          match l2 with
          | [] => false
          | b3 :: l3 =>
            if b = 224 then decide (160 ≤ b2 ∧ b2 ≤ 191) && utf8Cont b3 && utf8Valid l3
            else if (225 ≤ b ∧ b ≤ 236) ∨ b = 238 ∨ b = 239 then
              utf8Cont b2 && utf8Cont b3 && utf8Valid l3
            else if b = 237 then decide (128 ≤ b2 ∧ b2 ≤ 159) && utf8Cont b3 && utf8Valid l3
            else
              match l3 with
              | [] => false
              | b4 :: l4 =>
                if b = 240 then
                  decide (144 ≤ b2 ∧ b2 ≤ 191) && utf8Cont b3 && utf8Cont b4 && utf8Valid l4
                else if 241 ≤ b ∧ b ≤ 243 then
                  utf8Cont b2 && utf8Cont b3 && utf8Cont b4 && utf8Valid l4
                else if b = 244 then
                  decide (128 ≤ b2 ∧ b2 ≤ 143) && utf8Cont b3 && utf8Cont b4 && utf8Valid l4
                else false

inductive EscapeResult where
  | Parse : EscapeResult
  | NoParse : EscapeResult
  | Skip : EscapeResult
deriving DecidableEq, Repr

/-- file_reader.rs:40-58, `EscapeCounter::next`: the state is the count of
consecutive escape bytes; returns the disposition of the byte and the new
count. -/
def ecNext (count : Nat) (b : Nat) : EscapeResult × Nat :=
  (if count % 2 = 0 then
      if b = ESCAPE_BYTE then EscapeResult.Skip else EscapeResult.Parse
    else EscapeResult.NoParse,
   if b = ESCAPE_BYTE then count + 1 else 0)

/-- file_reader.rs:62-69, `ReaderData`: `fileRem` is what remains of the
underlying file behind the `BufReader`; `buf` the filled buffer prefix. -/
structure ReaderData where
  fileRem : List Nat
  path : List Nat
  buf : List Nat
  start : Nat
  is_transclude_enabled : Bool
deriving DecidableEq, Repr

structure FileReader where
  readers : List ReaderData
deriving DecidableEq, Repr

/-- file_reader.rs:88-106, `FileReader::add_file`: open the file (propagating
failure), then push a frame only when fewer than `MAX_TRANSCLUDE_DEPTH`
frames are open. -/
def add_file (fs : List Nat → Option (List Nat)) (r : FileReader) (path : List Nat) :
    Option FileReader :=
  match fs path with
  | none => none
  | some content =>
    some ⟨if r.readers.length < MAX_TRANSCLUDE_DEPTH then
        (⟨content, path, [], 0, is_transclude_enabled path⟩ : ReaderData) :: r.readers
      else r.readers⟩

/-- file_reader.rs:76-86. -/
def FileReader.new (fs : List Nat → Option (List Nat)) (path : List Nat) :
    Option FileReader :=
  add_file fs ⟨[]⟩ path

/-- file_reader.rs:199-239, `transclude`: scan the window for an unescaped
`}`, compacting the directive bytes into `buf[..bytes_written]` (the loop is
run `k` times, `k` the window size).  On `}` the bytes `buf[1..bytes_written]`
are decoded, resolved against the parent of the frame's path when relative,
and returned when the target exists. -/
def transcludeGo (fs : List Nat → Option (List Nat)) :
    Nat → ReaderData → Nat → Nat → Option (List Nat) × ReaderData
  | 0, d, _, _ => (none, d)
  | k + 1, d, bw, ec =>
    if d.start < d.buf.length then
      let b := d.buf.getD d.start 0
      let step := ecNext ec b
      match step.1 with
      | EscapeResult.Parse =>
        if b = TRANSCLUDE_END_BYTE then
          let d2 : ReaderData := { d with start := d.start + 1 }
          let pathBytes := (d.buf.drop 1).take (bw - 1)
          if utf8Valid pathBytes then
            match (if isRelativePath pathBytes then
                (parentPath d.path).map (fun pp => joinPath pp pathBytes)
              else some pathBytes) with
            | some path => if (fs path).isSome then (some path, d2) else (none, d2)
            | none => (none, d2)
          else (none, d2)
        else
          transcludeGo fs k { d with buf := d.buf.set bw b, start := d.start + 1 }
            (bw + 1) step.2
      | EscapeResult.NoParse =>
        transcludeGo fs k { d with buf := d.buf.set bw b, start := d.start + 1 }
          (bw + 1) step.2
      | EscapeResult.Skip => transcludeGo fs k { d with start := d.start + 1 } bw step.2
    else (none, d)

def transclude (fs : List Nat → Option (List Nat)) (d : ReaderData) :
    Option (List Nat) × ReaderData :=
  transcludeGo fs (d.buf.length - d.start) d 0 0

/-- Result of the inner `while` of `FileReader::read`
(file_reader.rs:159-192): either the window/output is exhausted, or an
unescaped `{` was reached (with `start` still at the `{`). -/
inductive InnerRes where
  | cont : ReaderData → List Nat → Nat → InnerRes
  | hitOpen : ReaderData → List Nat → Nat → InnerRes
deriving DecidableEq, Repr

/-- file_reader.rs:159-192 without the `{` arm's body: copy parsed bytes to
the output until the window ends, the output is full, or an unescaped `{`
is found (run `k` times, `k` the window size). -/
def readInnerGo : Nat → ReaderData → Nat → List Nat → Nat → InnerRes
  | 0, d, _, acc, ec => InnerRes.cont d acc ec
  | k + 1, d, cap, acc, ec =>
    if d.start < d.buf.length ∧ acc.length < cap then
      let b := d.buf.getD d.start 0
      let step := ecNext ec b
      match step.1 with
      | EscapeResult.Parse =>
        if b = TRANSCLUDE_START_BYTE then InnerRes.hitOpen d acc step.2
        else readInnerGo k { d with start := d.start + 1 } cap (acc ++ [b]) step.2
      | EscapeResult.NoParse =>
        readInnerGo k { d with start := d.start + 1 } cap (acc ++ [b]) step.2
      | EscapeResult.Skip => readInnerGo k { d with start := d.start + 1 } cap acc step.2
    else InnerRes.cont d acc ec

def readInner (d : ReaderData) (cap : Nat) (acc : List Nat) (ec : Nat) : InnerRes :=
  readInnerGo (d.buf.length - d.start) d cap acc ec

/-- file_reader.rs:163-167: on an unescaped `{`, `copy_within` moves the
window so the `{`  sits at index 0, then the buffer is refilled behind it. -/
def compactRefill (d2 : ReaderData) : ReaderData :=
  let bufc := d2.buf.drop d2.start
  let bufr := bufc ++ d2.fileRem.take (BUFFER_SIZE - bufc.length)
  let remr := d2.fileRem.drop (BUFFER_SIZE - bufc.length)
  { d2 with buf := bufr, start := 0, fileRem := remr }

/-- file_reader.rs:169, `drop(self.add_file(path))`: push the transclusion
target (depth permitting), ignoring open errors. -/
def pushAfterTransclude (fs : List Nat → Option (List Nat)) (d4 : ReaderData)
    (rest : List ReaderData) (path : List Nat) : List ReaderData :=
  match add_file fs ⟨d4 :: rest⟩ path with
  | none => d4 :: rest
  | some r2 => r2.readers

/-- file_reader.rs:126-196, `<FileReader as Read>::read`, one call with an
output buffer of size `cap`; `fuel` bounds the outer `while` iterations (the
claims supply enough).  Returns the bytes written and the frame stack, or
`none` when out of fuel.

  * a non-transcluding frame reads straight to the output, popping at EOF
    and continuing (file_reader.rs:137-147);
  * a transcluding frame refills its window when empty — EOF pops the frame
    and *breaks out of the call* (file_reader.rs:149-157);
  * an unescaped `{` compacts the window to start at the `{`, refills behind
    it, and runs `transclude`: on success `add_file` pushes the target
    (errors dropped), otherwise the window is rewound to the `{` with the
    escape count forced to 1 (file_reader.rs:161-177). -/
def readOuter (fs : List Nat → Option (List Nat)) :
    Nat → List ReaderData → Nat → List Nat → Nat → Option (List Nat × List ReaderData)
  | 0, _, _, _, _ => none
  | fuel + 1, frames, cap, acc, ec =>
    if acc.length < cap then
      match frames with
      | [] => some (acc, [])
      | d :: rest =>
        if d.is_transclude_enabled = false then
          let nr := min (cap - acc.length) d.fileRem.length
          if nr = 0 then readOuter fs fuel rest cap acc ec
          else
            readOuter fs fuel ({ d with fileRem := d.fileRem.drop nr } :: rest) cap
              (acc ++ d.fileRem.take nr) ec
        else if d.buf.length ≤ d.start then
          let newbuf := d.fileRem.take BUFFER_SIZE
          if newbuf.length = 0 then some (acc, rest)
          else
            let d2 : ReaderData :=
              { d with buf := newbuf, start := 0, fileRem := d.fileRem.drop BUFFER_SIZE }
            readOuter fs fuel (d2 :: rest) cap acc ec
        else
          match readInner d cap acc ec with
          | InnerRes.cont d2 acc2 ec2 => readOuter fs fuel (d2 :: rest) cap acc2 ec2
          | InnerRes.hitOpen d2 acc2 ec2 =>
            match transclude fs (compactRefill d2) with
            | (some path, d4) =>
              readOuter fs fuel (pushAfterTransclude fs d4 rest path) cap acc2 ec2
            | (none, d4) => readOuter fs fuel ({ d4 with start := 0 } :: rest) cap acc2 1
    else some (acc, frames)

def FileReader.read (fs : List Nat → Option (List Nat)) (r : FileReader)
    (cap fuel : Nat) : Option (List Nat × FileReader) :=
  (readOuter fs fuel r.readers cap [] 0).map (fun x => (x.1, ⟨x.2⟩))

/-- Repeated `read` calls until one returns 0 bytes (how `read_to_string` and
`respond_chunked` consume a reader). -/
def readToEnd (fs : List Nat → Option (List Nat)) (r : FileReader)
    (cap fuelPerCall : Nat) : Nat → Option (List Nat)
  | 0 => none
  | fuelCalls + 1 =>
    match FileReader.read fs r cap fuelPerCall with
    | none => none
    | some (bytes, r2) =>
      if bytes = [] then some []
      else (readToEnd fs r2 cap fuelPerCall fuelCalls).map (fun rest => bytes ++ rest)


/-! ### Reader lemmas -/

lemma readInnerGo_copy (cap : Nat) :
    ∀ (k : Nat) (d : ReaderData) (acc : List Nat),
      d.buf.length - d.start = k →
      d.start ≤ d.buf.length →
      (∀ b ∈ d.buf.drop d.start, ¬(b = 123 ∨ b = 92)) →
      acc.length + k ≤ cap →
      readInnerGo k d cap acc 0
        = InnerRes.cont { d with start := d.buf.length } (acc ++ d.buf.drop d.start) 0 := by
  intro k
  induction k with
  | zero =>
    intro d acc hk hle _hfree _hcap
    have hse : d.start = d.buf.length := by omega
    rw [List.drop_eq_nil_of_le (le_of_eq hse.symm), List.append_nil]
    rw [← hse]
    rfl
  | succ k ih =>
    intro d acc hk hle hfree hcap
    have hlt : d.start < d.buf.length := by omega
    have hdrop : d.buf.drop d.start = d.buf.getD d.start 0 :: d.buf.drop (d.start + 1) := by
      rw [List.getD_eq_getElem d.buf 0 hlt]
      exact List.drop_eq_getElem_cons hlt
    have hb : ¬(d.buf.getD d.start 0 = 123 ∨ d.buf.getD d.start 0 = 92) := by
      apply hfree
      rw [hdrop]
      exact List.mem_cons_self _ _
    have hb123 : d.buf.getD d.start 0 ≠ 123 := fun h => hb (Or.inl h)
    have hb92 : d.buf.getD d.start 0 ≠ 92 := fun h => hb (Or.inr h)
    show readInnerGo (k + 1) d cap acc 0 = _
    rw [readInnerGo]
    rw [if_pos ⟨hlt, by omega⟩]
    simp only [ecNext, ESCAPE_BYTE, TRANSCLUDE_START_BYTE, Nat.zero_mod, eq_self_iff_true,
      if_true, if_neg hb92, if_neg hb123]
    rw [ih { d with start := d.start + 1 } (acc ++ [d.buf.getD d.start 0]) (by simp; omega)
      (by simp; omega)
      (by intro b hbm; apply hfree; rw [hdrop]; exact List.mem_cons_of_mem _ hbm)
      (by simp; omega)]
    simp only [List.append_assoc, List.singleton_append]
    rw [← hdrop]

lemma readOuter_mono (fs : List Nat → Option (List Nat)) (cap : Nat) :
    ∀ (fuel fuel2 : Nat) (frames : List ReaderData) (acc : List Nat) (ec : Nat)
      (out : List Nat × List ReaderData),
      fuel ≤ fuel2 →
      readOuter fs fuel frames cap acc ec = some out →
      readOuter fs fuel2 frames cap acc ec = some out := by
  intro fuel
  induction fuel with
  | zero =>
    intro fuel2 frames acc ec out _ h
    cases h
  | succ fuel ih =>
    intro fuel2 frames acc ec out hle h
    cases fuel2 with
    | zero => omega
    | succ fuel2 =>
      have hle2 : fuel ≤ fuel2 := by omega
      cases frames with
      | nil =>
        rw [readOuter.eq_2] at h ⊢
        exact h
      | cons d rest =>
        simp only [readOuter.eq_3] at h ⊢
        by_cases hc : acc.length < cap
        · rw [if_pos hc] at h ⊢
          by_cases htr : d.is_transclude_enabled = false
          · rw [if_pos htr] at h ⊢
            by_cases hnr : min (cap - acc.length) d.fileRem.length = 0
            · rw [if_pos hnr] at h ⊢
              exact ih fuel2 rest acc ec out hle2 h
            · rw [if_neg hnr] at h ⊢
              exact ih fuel2 _ _ ec out hle2 h
          · rw [if_neg htr] at h ⊢
            by_cases hst : d.buf.length ≤ d.start
            · rw [if_pos hst] at h ⊢
              by_cases hnb : (d.fileRem.take BUFFER_SIZE).length = 0
              · rw [if_pos hnb] at h ⊢
                exact h
              · rw [if_neg hnb] at h ⊢
                exact ih fuel2 _ _ ec out hle2 h
            · rw [if_neg hst] at h ⊢
              revert h
              cases hin : readInner d cap acc ec with
              | cont d2 acc2 ec2 =>
                intro h
                exact ih fuel2 _ _ _ out hle2 h
              | hitOpen d2 acc2 ec2 =>
                intro h
                have h2 : (match transclude fs (compactRefill d2) with
                    | (some path, d4) =>
                      readOuter fs fuel (pushAfterTransclude fs d4 rest path) cap acc2 ec2
                    | (none, d4) =>
                      readOuter fs fuel ({ d4 with start := 0 } :: rest) cap acc2 1)
                    = some out := h
                show (match transclude fs (compactRefill d2) with
                    | (some path, d4) =>
                      readOuter fs fuel2 (pushAfterTransclude fs d4 rest path) cap acc2 ec2
                    | (none, d4) =>
                      readOuter fs fuel2 ({ d4 with start := 0 } :: rest) cap acc2 1)
                    = some out
                cases htc : transclude fs (compactRefill d2) with
                | mk op d4 =>
                  rw [htc] at h2
                  cases op with
                  | some path =>
                    exact ih fuel2 _ _ _ out hle2 h2
                  | none =>
                    exact ih fuel2 _ _ _ out hle2 h2
        · rw [if_neg hc] at h ⊢
          exact h

lemma readOuter_step_full (fs : List Nat → Option (List Nat)) (fuel : Nat)
    (frames : List ReaderData) (cap : Nat) (acc : List Nat) (ec : Nat)
    (h1 : ¬ acc.length < cap) :
    readOuter fs (fuel + 1) frames cap acc ec = some (acc, frames) := by
  cases frames with
  | nil => rw [readOuter.eq_2, if_neg h1]
  | cons d rest => simp only [readOuter.eq_3, if_neg h1]

lemma readOuter_step_nil (fs : List Nat → Option (List Nat)) (fuel : Nat)
    (cap : Nat) (acc : List Nat) (ec : Nat) :
    readOuter fs (fuel + 1) [] cap acc ec = some (acc, []) := by
  rw [readOuter.eq_2]
  split <;> rfl

lemma readOuter_step_raw_pop (fs : List Nat → Option (List Nat)) (fuel : Nat)
    (d : ReaderData) (rest : List ReaderData) (cap : Nat) (acc : List Nat) (ec : Nat)
    (h1 : acc.length < cap) (h2 : d.is_transclude_enabled = false)
    (h3 : min (cap - acc.length) d.fileRem.length = 0) :
    readOuter fs (fuel + 1) (d :: rest) cap acc ec = readOuter fs fuel rest cap acc ec := by
  simp [readOuter.eq_3, h1, h2, h3]

lemma readOuter_step_raw_read (fs : List Nat → Option (List Nat)) (fuel : Nat)
    (d : ReaderData) (rest : List ReaderData) (cap : Nat) (acc : List Nat) (ec : Nat)
    (h1 : acc.length < cap) (h2 : d.is_transclude_enabled = false)
    (h3 : min (cap - acc.length) d.fileRem.length ≠ 0) :
    readOuter fs (fuel + 1) (d :: rest) cap acc ec
      = readOuter fs fuel
          ({ d with fileRem := d.fileRem.drop (min (cap - acc.length) d.fileRem.length) } :: rest)
          cap (acc ++ d.fileRem.take (min (cap - acc.length) d.fileRem.length)) ec := by
  simp [readOuter.eq_3, h1, h2, h3]

lemma readOuter_step_eof (fs : List Nat → Option (List Nat)) (fuel : Nat)
    (d : ReaderData) (rest : List ReaderData) (cap : Nat) (acc : List Nat) (ec : Nat)
    (h1 : acc.length < cap) (h2 : d.is_transclude_enabled = true)
    (h3 : d.buf.length ≤ d.start) (h4 : d.fileRem = []) :
    readOuter fs (fuel + 1) (d :: rest) cap acc ec = some (acc, rest) := by
  simp [readOuter.eq_3, h1, h2, h3, h4]

lemma readOuter_step_refill (fs : List Nat → Option (List Nat)) (fuel : Nat)
    (d : ReaderData) (rest : List ReaderData) (cap : Nat) (acc : List Nat) (ec : Nat)
    (h1 : acc.length < cap) (h2 : d.is_transclude_enabled = true)
    (h3 : d.buf.length ≤ d.start) (h4 : d.fileRem ≠ []) :
    readOuter fs (fuel + 1) (d :: rest) cap acc ec
      = readOuter fs fuel
          ({ d with buf := d.fileRem.take BUFFER_SIZE, start := 0, fileRem := d.fileRem.drop BUFFER_SIZE } :: rest)
          cap acc ec := by
  simp [readOuter.eq_3, BUFFER_SIZE, h1, h2, h3, h4]

lemma readOuter_step_inner (fs : List Nat → Option (List Nat)) (fuel : Nat)
    (d d2 : ReaderData) (rest : List ReaderData) (cap : Nat) (acc acc2 : List Nat)
    (ec ec2 : Nat)
    (h1 : acc.length < cap) (h2 : d.is_transclude_enabled = true)
    (h3 : ¬ d.buf.length ≤ d.start)
    (h4 : readInner d cap acc ec = InnerRes.cont d2 acc2 ec2) :
    readOuter fs (fuel + 1) (d :: rest) cap acc ec
      = readOuter fs fuel (d2 :: rest) cap acc2 ec2 := by
  simp [readOuter.eq_3, h1, h2, h3, h4]

lemma readOuter_step_hit_push (fs : List Nat → Option (List Nat)) (fuel : Nat)
    (d d2 d4 : ReaderData) (rest : List ReaderData) (cap : Nat) (acc acc2 : List Nat)
    (ec ec2 : Nat) (path : List Nat)
    (h1 : acc.length < cap) (h2 : d.is_transclude_enabled = true)
    (h3 : ¬ d.buf.length ≤ d.start)
    (h4 : readInner d cap acc ec = InnerRes.hitOpen d2 acc2 ec2)
    (h5 : transclude fs (compactRefill d2) = (some path, d4)) :
    readOuter fs (fuel + 1) (d :: rest) cap acc ec
      = readOuter fs fuel (pushAfterTransclude fs d4 rest path) cap acc2 ec2 := by
  simp [readOuter.eq_3, h1, h2, h3, h4, h5]

lemma readOuter_step_hit_fail (fs : List Nat → Option (List Nat)) (fuel : Nat)
    (d d2 d4 : ReaderData) (rest : List ReaderData) (cap : Nat) (acc acc2 : List Nat)
    (ec ec2 : Nat)
    (h1 : acc.length < cap) (h2 : d.is_transclude_enabled = true)
    (h3 : ¬ d.buf.length ≤ d.start)
    (h4 : readInner d cap acc ec = InnerRes.hitOpen d2 acc2 ec2)
    (h5 : transclude fs (compactRefill d2) = (none, d4)) :
    readOuter fs (fuel + 1) (d :: rest) cap acc ec
      = readOuter fs fuel ({ d4 with start := 0 } :: rest) cap acc2 1 := by
  simp [readOuter.eq_3, h1, h2, h3, h4, h5]

/-- Consuming one non-transcluding frame completely, then continuing on the
popped stack. -/
lemma readOuter_raw_step (fs : List Nat → Option (List Nat)) (cap : Nat)
    (rest : List ReaderData) (fuel : Nat) (d : ReaderData) (acc : List Nat) (ec : Nat)
    (out : List Nat × List ReaderData)
    (hraw : d.is_transclude_enabled = false)
    (hcap : acc.length + d.fileRem.length < cap)
    (h2 : readOuter fs fuel rest cap (acc ++ d.fileRem) ec = some out) :
    readOuter fs (fuel + 2) (d :: rest) cap acc ec = some out := by
  by_cases hrem : d.fileRem = []
  · show readOuter fs ((fuel + 1) + 1) (d :: rest) cap acc ec = some out
    rw [readOuter_step_raw_pop fs (fuel + 1) d rest cap acc ec (by omega) hraw
      (by rw [hrem]; simp)]
    rw [hrem, List.append_nil] at h2
    exact readOuter_mono fs cap fuel (fuel + 1) rest acc ec out (by omega) h2
  · have hlen : 0 < d.fileRem.length := List.length_pos.mpr hrem
    have hmin : min (cap - acc.length) d.fileRem.length = d.fileRem.length := by omega
    show readOuter fs ((fuel + 1) + 1) (d :: rest) cap acc ec = some out
    rw [readOuter_step_raw_read fs (fuel + 1) d rest cap acc ec (by omega) hraw
      (by omega)]
    rw [hmin, List.take_length, List.drop_length]
    rw [readOuter_step_raw_pop fs fuel { d with fileRem := ([] : List Nat) } rest cap
      (acc ++ d.fileRem) ec (by simp; omega)
      (show ({ d with fileRem := ([] : List Nat) }).is_transclude_enabled = false from hraw)
      (by simp)]
    exact h2

/-- A transcluding frame whose window is spent streams its whole remaining
file to the output (no `{` or `\` occurs in it), is popped at EOF, and the
read call returns. -/
lemma readOuter_html_drained (fs : List Nat → Option (List Nat)) (cap : Nat)
    (rest : List ReaderData) :
    ∀ (k fuel : Nat) (d : ReaderData) (acc : List Nat),
      d.is_transclude_enabled = true →
      d.buf.length ≤ d.start →
      (∀ b ∈ d.fileRem, ¬(b = 123 ∨ b = 92)) →
      acc.length + d.fileRem.length < cap →
      d.fileRem.length ≤ k →
      2 * k + 2 ≤ fuel →
      readOuter fs fuel (d :: rest) cap acc 0 = some (acc ++ d.fileRem, rest) := by
  intro k
  induction k using Nat.strong_induction_on with
  | _ k ih =>
    intro fuel d acc htr hsp hfree hcap hk hfuel
    by_cases hrem : d.fileRem = []
    · obtain ⟨fuel2, rfl⟩ : ∃ f2, fuel = f2 + 1 := ⟨fuel - 1, by omega⟩
      rw [readOuter_step_eof fs fuel2 d rest cap acc 0 (by omega) htr hsp hrem, hrem,
        List.append_nil]
    · obtain ⟨fuel2, rfl⟩ : ∃ f2, fuel = f2 + 2 := ⟨fuel - 2, by omega⟩
      have hbs : 0 < BUFFER_SIZE := by norm_num [BUFFER_SIZE]
      have hlen : 0 < d.fileRem.length := List.length_pos.mpr hrem
      have htkl : (d.fileRem.take BUFFER_SIZE).length = min BUFFER_SIZE d.fileRem.length :=
        List.length_take _ _
      have hdl : (d.fileRem.drop BUFFER_SIZE).length = d.fileRem.length - BUFFER_SIZE :=
        List.length_drop _ _
      show readOuter fs ((fuel2 + 1) + 1) (d :: rest) cap acc 0 = _
      rw [readOuter_step_refill fs (fuel2 + 1) d rest cap acc 0 (by omega) htr hsp hrem]
      have hinner : readInner
          { d with buf := d.fileRem.take BUFFER_SIZE, start := 0, fileRem := d.fileRem.drop BUFFER_SIZE }
          cap acc 0
          = InnerRes.cont
            { d with buf := d.fileRem.take BUFFER_SIZE, start := (d.fileRem.take BUFFER_SIZE).length, fileRem := d.fileRem.drop BUFFER_SIZE }
            (acc ++ d.fileRem.take BUFFER_SIZE) 0 := by
        have hcpy := readInnerGo_copy cap ((d.fileRem.take BUFFER_SIZE).length)
          { d with buf := d.fileRem.take BUFFER_SIZE, start := 0, fileRem := d.fileRem.drop BUFFER_SIZE }
          acc (by simp) (Nat.zero_le _)
          (by
            intro b hb
            simp only [List.drop_zero] at hb
            exact hfree b (List.mem_of_mem_take hb))
          (by rw [htkl]; omega)
        rw [readInner]
        simpa using hcpy
      rw [readOuter_step_inner fs fuel2 _ _ rest cap acc _ 0 0 (by omega) (by simp [htr])
        (by simp; exact ⟨by omega, hrem⟩) hinner]
      have hrec := ih ((d.fileRem.drop BUFFER_SIZE).length)
        (by rw [hdl]; omega)
        fuel2
        { d with buf := d.fileRem.take BUFFER_SIZE, start := (d.fileRem.take BUFFER_SIZE).length, fileRem := d.fileRem.drop BUFFER_SIZE }
        (acc ++ d.fileRem.take BUFFER_SIZE)
        (by simp [htr]) (by simp)
        (by
          intro b hb
          exact hfree b (List.drop_subset _ _ hb))
        (by
          simp only [List.length_append]
          rw [htkl, hdl]
          omega)
        (le_refl _)
        (by rw [hdl]; omega)
      rw [hrec, List.append_assoc, List.take_append_drop]

/-- Bytes of a string literal. -/
def bytesOf (s : String) : List Nat := s.data.map Char.toNat

/-- General form of the free-streaming lemma: the unread window plus the
remaining file bytes (none `{` or `\`) are streamed to the output and the
frame is popped, ending the call. -/
lemma readOuter_html_free (fs : List Nat → Option (List Nat)) (cap : Nat)
    (rest : List ReaderData) (fuel : Nat) (d : ReaderData) (acc : List Nat)
    (htr : d.is_transclude_enabled = true)
    (hse : d.start ≤ d.buf.length)
    (hfree : ∀ b ∈ (d.buf.drop d.start ++ d.fileRem), ¬(b = 123 ∨ b = 92))
    (hcap : acc.length + (d.buf.length - d.start) + d.fileRem.length < cap)
    (hfuel : 2 * d.fileRem.length + 3 ≤ fuel) :
    readOuter fs fuel (d :: rest) cap acc 0
      = some (acc ++ d.buf.drop d.start ++ d.fileRem, rest) := by
  by_cases hwin : d.buf.length ≤ d.start
  · rw [List.drop_eq_nil_of_le hwin, List.append_nil]
    exact readOuter_html_drained fs cap rest d.fileRem.length fuel d acc htr hwin
      (fun b hb => hfree b (List.mem_append_right _ hb)) (by omega) (le_refl _) (by omega)
  · obtain ⟨fuel2, rfl⟩ : ∃ f2, fuel = f2 + 1 := ⟨fuel - 1, by omega⟩
    have hinner : readInner d cap acc 0
        = InnerRes.cont { d with start := d.buf.length } (acc ++ d.buf.drop d.start) 0 := by
      have hcpy := readInnerGo_copy cap (d.buf.length - d.start) d acc rfl hse
        (fun b hb => hfree b (List.mem_append_left _ hb)) (by omega)
      rw [readInner]
      exact hcpy
    rw [readOuter_step_inner fs fuel2 d _ rest cap acc _ 0 0 (by omega) htr hwin hinner]
    have hrec := readOuter_html_drained fs cap rest d.fileRem.length fuel2
      { d with start := d.buf.length } (acc ++ d.buf.drop d.start)
      (by simp [htr]) (by simp)
      (fun b hb => hfree b (List.mem_append_right _ hb))
      (by simp; omega)
      (le_refl _) (by omega)
    rw [hrec, List.append_assoc]

/-- **C7.**  A file whose bytes contain none of `{`, `}`, `\` is reproduced
byte-for-byte by the transcluding reader, whether or not its path has an
html extension. -/
theorem transclusion_identity (path content : List Nat)
    (hfree : ∀ b ∈ content, ¬(b = 123 ∨ b = 125 ∨ b = 92))
    (fs : List Nat → Option (List Nat)) (hfs : fs path = some content) :
    FileReader.new fs path
        = some ⟨[⟨content, path, [], 0, is_transclude_enabled path⟩]⟩ ∧
    readToEnd fs ⟨[⟨content, path, [], 0, is_transclude_enabled path⟩]⟩
        (content.length + 1) (2 * content.length + 3) 2
      = some content := by
  have hfree2 : ∀ b ∈ content, ¬(b = 123 ∨ b = 92) := by
    intro b hb hor
    rcases hor with h | h
    · exact hfree b hb (Or.inl h)
    · exact hfree b hb (Or.inr (Or.inr h))
  constructor
  · rw [FileReader.new, add_file, hfs]
    simp [MAX_TRANSCLUDE_DEPTH]
  · have hread1 : FileReader.read fs ⟨[⟨content, path, [], 0, is_transclude_enabled path⟩]⟩
        (content.length + 1) (2 * content.length + 3) = some (content, ⟨[]⟩) := by
      rw [FileReader.read]
      by_cases htr : is_transclude_enabled path = true
      · have := readOuter_html_free fs (content.length + 1) []
          (2 * content.length + 3) ⟨content, path, [], 0, is_transclude_enabled path⟩ []
          (by simp [htr]) (by simp) (by simpa using hfree2) (by simp) (by simp)
        rw [this]
        simp
      · have htr2 : (⟨content, path, [], 0, is_transclude_enabled path⟩ : ReaderData).is_transclude_enabled = false := by
          simp at htr
          simpa using htr
        have hnil : readOuter fs (2 * content.length + 1) [] (content.length + 1) ([] ++ content) 0
            = some ([] ++ content, []) := by
          obtain ⟨f2, hf2⟩ : ∃ f2, 2 * content.length + 1 = f2 + 1 := ⟨2 * content.length, rfl⟩
          rw [hf2, readOuter_step_nil]
        have := readOuter_raw_step fs (content.length + 1) [] (2 * content.length + 1)
          ⟨content, path, [], 0, is_transclude_enabled path⟩ [] 0 (([] ++ content), [])
          htr2 (by simp) hnil
        rw [show 2 * content.length + 3 = (2 * content.length + 1) + 2 from rfl, this]
        simp
    have hread2 : FileReader.read fs ⟨[]⟩ (content.length + 1) (2 * content.length + 3)
        = some ([], ⟨[]⟩) := by
      rw [FileReader.read]
      obtain ⟨f2, hf2⟩ : ∃ f2, 2 * content.length + 3 = f2 + 1 := ⟨2 * content.length + 2, rfl⟩
      rw [hf2, readOuter_step_nil]
      simp
    have hfin : readToEnd fs ⟨[]⟩ (content.length + 1) (2 * content.length + 3) (0 + 1)
        = some [] := by
      rw [readToEnd, hread2]
      simp
    rw [readToEnd, hread1]
    by_cases hc : content = []
    · simp [hc]
    · simp only [hc, if_neg, ite_false]
      rw [show (1 : Nat) = 0 + 1 from rfl, hfin]
      simp

theorem transclusion_identity_witness :
    ((∀ b ∈ bytesOf "hi", ¬(b = 123 ∨ b = 125 ∨ b = 92)) ∧
      (fun p => if p = bytesOf "/a/f.html" then some (bytesOf "hi") else none)
        (bytesOf "/a/f.html") = some (bytesOf "hi")) ∧
    (FileReader.new
        (fun p => if p = bytesOf "/a/f.html" then some (bytesOf "hi") else none)
        (bytesOf "/a/f.html")
      = some ⟨[⟨bytesOf "hi", bytesOf "/a/f.html", [], 0,
          is_transclude_enabled (bytesOf "/a/f.html")⟩]⟩ ∧
    readToEnd (fun p => if p = bytesOf "/a/f.html" then some (bytesOf "hi") else none)
        ⟨[⟨bytesOf "hi", bytesOf "/a/f.html", [], 0,
          is_transclude_enabled (bytesOf "/a/f.html")⟩]⟩
        ((bytesOf "hi").length + 1) (2 * (bytesOf "hi").length + 3) 2
      = some (bytesOf "hi")) :=
  ⟨⟨by decide, by decide⟩,
    transclusion_identity (bytesOf "/a/f.html") (bytesOf "hi") (by decide)
      (fun p => if p = bytesOf "/a/f.html" then some (bytesOf "hi") else none) (by decide)⟩


lemma pushAfterTransclude_length (fs : List Nat → Option (List Nat)) (d4 : ReaderData)
    (rest : List ReaderData) (path : List Nat)
    (h : (d4 :: rest).length ≤ MAX_TRANSCLUDE_DEPTH) :
    (pushAfterTransclude fs d4 rest path).length ≤ MAX_TRANSCLUDE_DEPTH := by
  unfold pushAfterTransclude add_file
  cases fs path with
  | none => exact h
  | some content =>
    simp only
    by_cases hl : (d4 :: rest).length < MAX_TRANSCLUDE_DEPTH
    · rw [if_pos hl]
      simp only [List.length_cons] at *
      omega
    · rw [if_neg hl]
      exact h

lemma readOuter_depth (fs : List Nat → Option (List Nat)) (cap : Nat) :
    ∀ (fuel : Nat) (frames : List ReaderData) (acc : List Nat) (ec : Nat)
      (out : List Nat) (frames2 : List ReaderData),
      frames.length ≤ MAX_TRANSCLUDE_DEPTH →
      readOuter fs fuel frames cap acc ec = some (out, frames2) →
      frames2.length ≤ MAX_TRANSCLUDE_DEPTH := by
  intro fuel
  induction fuel with
  | zero =>
    intro frames acc ec out frames2 _ h
    cases h
  | succ fuel ih =>
    intro frames acc ec out frames2 hlen h
    cases frames with
    | nil =>
      rw [readOuter.eq_2] at h
      split at h <;> · injection h with h2; rw [← (Prod.mk.injEq _ _ _ _).mp h2 |>.2]; simp [MAX_TRANSCLUDE_DEPTH]
    | cons d rest =>
      have hrest : rest.length ≤ MAX_TRANSCLUDE_DEPTH := by
        simp only [List.length_cons] at hlen
        omega
      simp only [readOuter.eq_3] at h
      by_cases hc : acc.length < cap
      · rw [if_pos hc] at h
        by_cases htr : d.is_transclude_enabled = false
        · rw [if_pos htr] at h
          by_cases hnr : min (cap - acc.length) d.fileRem.length = 0
          · rw [if_pos hnr] at h
            exact ih rest acc ec out frames2 hrest h
          · rw [if_neg hnr] at h
            exact ih _ _ ec out frames2 (by simpa using hlen) h
        · rw [if_neg htr] at h
          by_cases hst : d.buf.length ≤ d.start
          · rw [if_pos hst] at h
            by_cases hnb : (d.fileRem.take BUFFER_SIZE).length = 0
            · rw [if_pos hnb] at h
              injection h with h2
              rw [← (Prod.mk.injEq _ _ _ _).mp h2 |>.2]
              exact hrest
            · rw [if_neg hnb] at h
              exact ih _ _ ec out frames2 (by simpa using hlen) h
          · rw [if_neg hst] at h
            revert h
            cases hin : readInner d cap acc ec with
            | cont d2 acc2 ec2 =>
              intro h
              exact ih _ _ _ out frames2 (by simpa using hlen) h
            | hitOpen d2 acc2 ec2 =>
              intro h
              have h2 : (match transclude fs (compactRefill d2) with
                  | (some path, d4) =>
                    readOuter fs fuel (pushAfterTransclude fs d4 rest path) cap acc2 ec2
                  | (none, d4) =>
                    readOuter fs fuel ({ d4 with start := 0 } :: rest) cap acc2 1)
                  = some (out, frames2) := h
              revert h2
              cases htc : transclude fs (compactRefill d2) with
              | mk op d4 =>
                cases op with
                | some path =>
                  intro h2
                  exact ih _ _ _ out frames2
                    (pushAfterTransclude_length fs d4 rest path (by simpa using hlen)) h2
                | none =>
                  intro h2
                  exact ih _ _ _ out frames2 (by simpa using hlen) h2
      · rw [if_neg hc] at h
        injection h with h2
        rw [← (Prod.mk.injEq _ _ _ _).mp h2 |>.2]
        exact hlen

/-- A filesystem holding only `/x` (the depth-cap scenario's target). -/
def fsDepth : List Nat → Option (List Nat) := fun p =>
  if p = [47, 120] then some [77, 73, 68] else none

def depthTopFrame : ReaderData :=
  ⟨bytesOf "A{/x}B", bytesOf "/t.html", [], 0, is_transclude_enabled (bytesOf "/t.html")⟩

def depthDummyFrame : ReaderData :=
  ⟨[], bytesOf "/d.html", [], 0, is_transclude_enabled (bytesOf "/d.html")⟩

/-- Ten open frames: the reader is at the transclusion depth cap. -/
def depthState : FileReader := ⟨depthTopFrame :: List.replicate 9 depthDummyFrame⟩

/-- **C10.**  The frame stack never exceeds `MAX_TRANSCLUDE_DEPTH = 10`
frames: any read call on a stack of at most 10 frames leaves at most 10
(`add_file` refuses the push at the cap).  Moreover, parsing an include
directive while 10 frames are open, with an existing openable target, emits
nothing at all: the concrete depth-10 state whose top frame reads `A{/x}B`
(with `/x` present, containing `MID`) produces exactly `AB` — neither the
target's contents nor the literal directive text. -/
theorem transclude_depth_cap (fs : List Nat → Option (List Nat)) (r : FileReader)
    (cap fuel : Nat) (out : List Nat) (r2 : FileReader)
    (hlen : r.readers.length ≤ MAX_TRANSCLUDE_DEPTH)
    (hread : FileReader.read fs r cap fuel = some (out, r2)) :
    r2.readers.length ≤ MAX_TRANSCLUDE_DEPTH ∧
    readToEnd fsDepth depthState 16 6 3 = some [65, 66] := by
  constructor
  · rw [FileReader.read] at hread
    rcases Option.map_eq_some'.mp hread with ⟨⟨o, fr⟩, hro, heq⟩
    have h2 : (⟨fr⟩ : FileReader) = r2 := ((Prod.mk.injEq _ _ _ _).mp heq).2
    rw [← h2]
    exact readOuter_depth fs cap fuel r.readers [] 0 o fr hlen hro
  · decide

theorem transclude_depth_cap_witness :
    (depthState.readers.length ≤ MAX_TRANSCLUDE_DEPTH ∧
      FileReader.read fsDepth depthState 16 6
        = some ([65, 66], ⟨List.replicate 9 depthDummyFrame⟩)) ∧
    ((⟨List.replicate 9 depthDummyFrame⟩ : FileReader).readers.length
        ≤ MAX_TRANSCLUDE_DEPTH ∧
      readToEnd fsDepth depthState 16 6 3 = some [65, 66]) :=
  ⟨⟨by decide, by decide⟩,
    transclude_depth_cap fsDepth depthState 16 6 [65, 66]
      ⟨List.replicate 9 depthDummyFrame⟩ (by decide) (by decide)⟩

/-- Fixture for the escape law, first half: `/a/p.html` contains the bytes
of `\\{s.txt}` and `/a/s.txt` holds arbitrary bytes `c`. -/
def fs6 (c : List Nat) : List Nat → Option (List Nat) := fun p =>
  if p = [47, 97, 47, 112, 46, 104, 116, 109, 108] then
    some [92, 92, 123, 115, 46, 116, 120, 116, 125]
  else if p = [47, 97, 47, 115, 46, 116, 120, 116] then some c
  else none

/-- Fixture for the escape law, second half: `/a/q.html` contains a `\`,
then `{`, then the directive text `xs`, then `}`. -/
def fs6b (xs : List Nat) : List Nat → Option (List Nat) := fun p =>
  if p = [47, 97, 47, 113, 46, 104, 116, 109, 108] then
    some (92 :: 123 :: (xs ++ [125]))
  else none

set_option maxHeartbeats 1000000 in
/-- **C6.**  Escape law of the transcluding reader on an HTML path.  First
half: an input `\\` immediately followed by a directive `\x7bs.txt\x7d` is
output as one literal backslash followed by the expansion of the directive
(the bytes `c` of `/a/s.txt`, arbitrary).  Second half: an input `\` followed
by `\x7bxs\x7d` (any directive text `xs` free of `\x7b` and `\`) is output as
the literal text `\x7bxs\x7d`, with no transclusion attempted. -/
theorem escape_law (c xs : List Nat) (hxs : ∀ b ∈ xs, ¬(b = 123 ∨ b = 92)) :
    ((FileReader.new (fs6 c) [47, 97, 47, 112, 46, 104, 116, 109, 108]).bind
        (fun r => readToEnd (fs6 c) r (c.length + 2) 6 2)
      = some (92 :: c))
    ∧ ((FileReader.new (fs6b xs) [47, 97, 47, 113, 46, 104, 116, 109, 108]).bind
        (fun r => readToEnd (fs6b xs) r (xs.length + 4) (2 * xs.length + 6) 2)
      = some (123 :: (xs ++ [125]))) := by
  constructor
  · have hnew : FileReader.new (fs6 c) [47, 97, 47, 112, 46, 104, 116, 109, 108]
        = some ⟨[⟨[92, 92, 123, 115, 46, 116, 120, 116, 125],
            [47, 97, 47, 112, 46, 104, 116, 109, 108], [], 0, true⟩]⟩ := rfl
    rw [hnew]
    have h4 : readInner
        ⟨[], [47, 97, 47, 112, 46, 104, 116, 109, 108],
          [92, 92, 123, 115, 46, 116, 120, 116, 125], 0, true⟩
        (c.length + 2) [] 0
        = InnerRes.hitOpen
            ⟨[], [47, 97, 47, 112, 46, 104, 116, 109, 108],
              [92, 92, 123, 115, 46, 116, 120, 116, 125], 2, true⟩
            [92] 0 := by
      rw [readInner]
      show readInnerGo (8 + 1) _ _ _ _ = _
      rw [readInnerGo.eq_2, if_pos (⟨by decide, by simp⟩ : _ ∧ _)]
      show readInnerGo (7 + 1)
        ⟨[], [47, 97, 47, 112, 46, 104, 116, 109, 108],
          [92, 92, 123, 115, 46, 116, 120, 116, 125], 1, true⟩
        (c.length + 2) [] 1 = _
      rw [readInnerGo.eq_2, if_pos (⟨by decide, by simp⟩ : _ ∧ _)]
      show readInnerGo (6 + 1)
        ⟨[], [47, 97, 47, 112, 46, 104, 116, 109, 108],
          [92, 92, 123, 115, 46, 116, 120, 116, 125], 2, true⟩
        (c.length + 2) [92] 2 = _
      rw [readInnerGo.eq_2, if_pos (⟨by decide, by simp⟩ : _ ∧ _)]
      rfl
    have h5 : transclude (fs6 c) (compactRefill
        ⟨[], [47, 97, 47, 112, 46, 104, 116, 109, 108],
          [92, 92, 123, 115, 46, 116, 120, 116, 125], 2, true⟩)
        = (some [47, 97, 47, 115, 46, 116, 120, 116],
           ⟨[], [47, 97, 47, 112, 46, 104, 116, 109, 108],
             [123, 115, 46, 116, 120, 116, 125], 7, true⟩) := rfl
    have hread1 : FileReader.read (fs6 c)
        ⟨[⟨[92, 92, 123, 115, 46, 116, 120, 116, 125],
            [47, 97, 47, 112, 46, 104, 116, 109, 108], [], 0, true⟩]⟩
        (c.length + 2) 6 = some (92 :: c, ⟨[]⟩) := by
      rw [FileReader.read]
      have t1 : readOuter (fs6 c) 6
          [⟨[92, 92, 123, 115, 46, 116, 120, 116, 125],
            [47, 97, 47, 112, 46, 104, 116, 109, 108], [], 0, true⟩]
          (c.length + 2) [] 0
          = readOuter (fs6 c) 5
            [⟨[], [47, 97, 47, 112, 46, 104, 116, 109, 108],
              [92, 92, 123, 115, 46, 116, 120, 116, 125], 0, true⟩]
            (c.length + 2) [] 0 := by
        rw [show (6 : Nat) = 5 + 1 from rfl]
        rw [readOuter_step_refill (fs6 c) 5 _ [] (c.length + 2) [] 0 (by simp) rfl
          (by decide) (by decide)]
        rfl
      have t2 : readOuter (fs6 c) 5
          [⟨[], [47, 97, 47, 112, 46, 104, 116, 109, 108],
            [92, 92, 123, 115, 46, 116, 120, 116, 125], 0, true⟩]
          (c.length + 2) [] 0
          = readOuter (fs6 c) 4
            [⟨c, [47, 97, 47, 115, 46, 116, 120, 116], [], 0, false⟩,
             ⟨[], [47, 97, 47, 112, 46, 104, 116, 109, 108],
               [123, 115, 46, 116, 120, 116, 125], 7, true⟩]
            (c.length + 2) [92] 0 := by
        rw [show (5 : Nat) = 4 + 1 from rfl]
        rw [readOuter_step_hit_push (fs6 c) 4 _ _ _ [] (c.length + 2) [] [92] 0 0
          [47, 97, 47, 115, 46, 116, 120, 116] (by simp) rfl (by decide) h4 h5]
        rfl
      have heof : readOuter (fs6 c) 2
          [⟨[], [47, 97, 47, 112, 46, 104, 116, 109, 108],
            [123, 115, 46, 116, 120, 116, 125], 7, true⟩]
          (c.length + 2) ([92] ++ c) 0 = some ([92] ++ c, []) := by
        rw [show (2 : Nat) = 1 + 1 from rfl]
        exact readOuter_step_eof (fs6 c) 1 _ [] _ _ 0 (by simp) rfl (by decide) rfl
      have t3 := readOuter_raw_step (fs6 c) (c.length + 2) _ 2
        (⟨c, [47, 97, 47, 115, 46, 116, 120, 116], [], 0, false⟩ : ReaderData)
        [92] 0 (([92] ++ c), []) rfl (by simp; omega) heof
      rw [t1, t2]
      rw [show (4 : Nat) = 2 + 2 from rfl, t3]
      simp
    rw [Option.some_bind]
    rw [show (2 : Nat) = 1 + 1 from rfl, readToEnd, hread1]
    have hread2 : FileReader.read (fs6 c) ⟨[]⟩ (c.length + 2) 6 = some ([], ⟨[]⟩) := by
      rw [FileReader.read]
      rw [show (6 : Nat) = 5 + 1 from rfl, readOuter_step_nil]
      simp
    have hfin : readToEnd (fs6 c) ⟨[]⟩ (c.length + 2) 6 (0 + 1) = some [] := by
      rw [readToEnd, hread2]
      simp
    simp only [List.cons_ne_nil, ite_false]
    rw [show (1 : Nat) = 0 + 1 from rfl, hfin]
    simp
  · have hW : ((xs ++ [125]).take 1022).length ≤ xs.length + 1 := by
      rw [List.length_take, List.length_append, List.length_singleton]
      omega
    have hWD : ((xs ++ [125]).take 1022).length + ((xs ++ [125]).drop 1022).length
        = xs.length + 1 := by
      rw [List.length_take, List.length_drop, List.length_append,
        List.length_singleton]
      omega
    have hWfree : ∀ b ∈ (xs ++ [125]).take 1022, ¬(b = 123 ∨ b = 92) := by
      intro b hb
      have := List.mem_of_mem_take hb
      rcases List.mem_append.mp this with h | h
      · exact hxs b h
      · simp at h
        subst h
        decide
    have hDfree : ∀ b ∈ (xs ++ [125]).drop 1022, ¬(b = 123 ∨ b = 92) := by
      intro b hb
      have := List.drop_subset 1022 (xs ++ [125]) hb
      rcases List.mem_append.mp this with h | h
      · exact hxs b h
      · simp at h
        subst h
        decide
    have hnew : FileReader.new (fs6b xs) [47, 97, 47, 113, 46, 104, 116, 109, 108]
        = some ⟨[⟨92 :: 123 :: (xs ++ [125]),
            [47, 97, 47, 113, 46, 104, 116, 109, 108], [], 0, true⟩]⟩ := rfl
    rw [hnew, Option.some_bind]
    have s1 : readInnerGo (((xs ++ [125]).take 1022).length + 1 + 1)
        ⟨(xs ++ [125]).drop 1022, [47, 97, 47, 113, 46, 104, 116, 109, 108],
          92 :: 123 :: ((xs ++ [125]).take 1022), 0, true⟩
        (xs.length + 4) [] 0
        = readInnerGo (((xs ++ [125]).take 1022).length + 1)
            ⟨(xs ++ [125]).drop 1022, [47, 97, 47, 113, 46, 104, 116, 109, 108],
              92 :: 123 :: ((xs ++ [125]).take 1022), 1, true⟩
            (xs.length + 4) [] 1 := by
      rw [readInnerGo.eq_2, if_pos (⟨by simp, by simp⟩ : _ ∧ _)]
      rfl
    have s2 : readInnerGo (((xs ++ [125]).take 1022).length + 1)
        ⟨(xs ++ [125]).drop 1022, [47, 97, 47, 113, 46, 104, 116, 109, 108],
          92 :: 123 :: ((xs ++ [125]).take 1022), 1, true⟩
        (xs.length + 4) [] 1
        = readInnerGo ((xs ++ [125]).take 1022).length
            ⟨(xs ++ [125]).drop 1022, [47, 97, 47, 113, 46, 104, 116, 109, 108],
              92 :: 123 :: ((xs ++ [125]).take 1022), 2, true⟩
            (xs.length + 4) [123] 0 := by
      rw [readInnerGo.eq_2, if_pos (⟨by simp, by simp⟩ : _ ∧ _)]
      rfl
    have hcpy := readInnerGo_copy (xs.length + 4) ((xs ++ [125]).take 1022).length
      ⟨(xs ++ [125]).drop 1022, [47, 97, 47, 113, 46, 104, 116, 109, 108],
        92 :: 123 :: ((xs ++ [125]).take 1022), 2, true⟩
      [123]
      (by simp only [List.length_cons]; omega)
      (by simp only [List.length_cons]; omega)
      (by
        intro b hb
        simp only [List.drop_succ_cons, List.drop_zero] at hb
        exact hWfree b hb)
      (by simp only [List.length_cons, List.length_nil]; omega)
    have h4 : readInner
        ⟨(xs ++ [125]).drop 1022, [47, 97, 47, 113, 46, 104, 116, 109, 108],
          92 :: 123 :: ((xs ++ [125]).take 1022), 0, true⟩
        (xs.length + 4) [] 0
        = InnerRes.cont
            ⟨(xs ++ [125]).drop 1022, [47, 97, 47, 113, 46, 104, 116, 109, 108],
              92 :: 123 :: ((xs ++ [125]).take 1022),
              ((xs ++ [125]).take 1022).length + 2, true⟩
            ([123] ++ (xs ++ [125]).take 1022) 0 := by
      rw [readInner]
      show readInnerGo (((xs ++ [125]).take 1022).length + 1 + 1) _ _ _ _ = _
      rw [s1, s2, hcpy]
      rfl
    have hread1 : FileReader.read (fs6b xs)
        ⟨[⟨92 :: 123 :: (xs ++ [125]), [47, 97, 47, 113, 46, 104, 116, 109, 108],
          [], 0, true⟩]⟩
        (xs.length + 4) (2 * xs.length + 6)
        = some (123 :: (xs ++ [125]), ⟨[]⟩) := by
      rw [FileReader.read]
      have t1 : readOuter (fs6b xs) (2 * xs.length + 6)
          [⟨92 :: 123 :: (xs ++ [125]), [47, 97, 47, 113, 46, 104, 116, 109, 108],
            [], 0, true⟩]
          (xs.length + 4) [] 0
          = readOuter (fs6b xs) (2 * xs.length + 5)
            [⟨(xs ++ [125]).drop 1022, [47, 97, 47, 113, 46, 104, 116, 109, 108],
              92 :: 123 :: ((xs ++ [125]).take 1022), 0, true⟩]
            (xs.length + 4) [] 0 := by
        show readOuter _ (2 * xs.length + 5 + 1) _ _ _ _ = _
        rw [readOuter_step_refill (fs6b xs) (2 * xs.length + 5) _ []
          (xs.length + 4) [] 0 (by simp) rfl (by simp) (by simp)]
        rfl
      have t2 : readOuter (fs6b xs) (2 * xs.length + 5)
          [⟨(xs ++ [125]).drop 1022, [47, 97, 47, 113, 46, 104, 116, 109, 108],
            92 :: 123 :: ((xs ++ [125]).take 1022), 0, true⟩]
          (xs.length + 4) [] 0
          = readOuter (fs6b xs) (2 * xs.length + 4)
            [⟨(xs ++ [125]).drop 1022, [47, 97, 47, 113, 46, 104, 116, 109, 108],
              92 :: 123 :: ((xs ++ [125]).take 1022),
              ((xs ++ [125]).take 1022).length + 2, true⟩]
            (xs.length + 4) ([123] ++ (xs ++ [125]).take 1022) 0 := by
        show readOuter _ (2 * xs.length + 4 + 1) _ _ _ _ = _
        exact readOuter_step_inner (fs6b xs) (2 * xs.length + 4) _ _ []
          (xs.length + 4) [] _ 0 0 (by simp) rfl
          (by simp only [List.length_cons]; omega) h4
      have t3 : readOuter (fs6b xs) (2 * xs.length + 4)
          [⟨(xs ++ [125]).drop 1022, [47, 97, 47, 113, 46, 104, 116, 109, 108],
            92 :: 123 :: ((xs ++ [125]).take 1022),
            ((xs ++ [125]).take 1022).length + 2, true⟩]
          (xs.length + 4) ([123] ++ (xs ++ [125]).take 1022) 0
          = some (123 :: (xs ++ [125]), []) := by
        have hdr := readOuter_html_drained (fs6b xs) (xs.length + 4) []
          ((xs ++ [125]).drop 1022).length (2 * xs.length + 4)
          ⟨(xs ++ [125]).drop 1022, [47, 97, 47, 113, 46, 104, 116, 109, 108],
            92 :: 123 :: ((xs ++ [125]).take 1022),
            ((xs ++ [125]).take 1022).length + 2, true⟩
          ([123] ++ (xs ++ [125]).take 1022)
          rfl (by simp only [List.length_cons]; omega) hDfree
          (by simp only [List.length_append, List.length_cons, List.length_nil]
              omega)
          (le_refl _)
          (by omega)
        rw [hdr]
        rw [List.append_assoc, List.take_append_drop]
        rfl
      rw [t1, t2, t3]
      simp
    rw [show (2 : Nat) = 1 + 1 from rfl, readToEnd, hread1]
    have hread2 : FileReader.read (fs6b xs) ⟨[]⟩ (xs.length + 4)
        (2 * xs.length + 6) = some ([], ⟨[]⟩) := by
      rw [FileReader.read]
      show (readOuter _ (2 * xs.length + 5 + 1) _ _ _ _).map _ = _
      rw [readOuter_step_nil]
      simp
    have hfin : readToEnd (fs6b xs) ⟨[]⟩ (xs.length + 4) (2 * xs.length + 6) (0 + 1)
        = some [] := by
      rw [readToEnd, hread2]
      simp
    simp only [List.cons_ne_nil, ite_false]
    rw [show (1 : Nat) = 0 + 1 from rfl, hfin]
    simp

theorem escape_law_witness :
    (∀ b ∈ [120], ¬(b = 123 ∨ b = 92)) ∧
    (((FileReader.new (fs6 [77, 73, 68]) [47, 97, 47, 112, 46, 104, 116, 109, 108]).bind
        (fun r => readToEnd (fs6 [77, 73, 68]) r ([77, 73, 68].length + 2) 6 2)
      = some (92 :: [77, 73, 68]))
    ∧ ((FileReader.new (fs6b [120]) [47, 97, 47, 113, 46, 104, 116, 109, 108]).bind
        (fun r => readToEnd (fs6b [120]) r ([120].length + 4) (2 * [120].length + 6) 2)
      = some (123 :: ([120] ++ [125])))) :=
  ⟨by decide, escape_law [77, 73, 68] [120] (by decide)⟩

end UserSites
